import Mathlib

/-!
Verification of the tech-stack-analyzer detection engine.

This file gives a shallow embedding, in Lean, of the payload model, the
classifier, the content-validation gate, the docker-compose and Maven POM
parsers, and the id generation of the scanner, translated from the Go
sources (internal/types/payload.go, internal/scanner/component_types.go,
internal/scanner/matchers, internal/scanner/components/docker/detector.go,
the Java parser, and the scanner traversal), and proves or refutes the
specified properties about them.

Go machine integers only appear as non-negative counts here, so they are
modelled as Nat; Go maps are modelled as association lists in a fixed
(insertion) iteration order; Go slices are Lean lists; fallible reads are
Option.
-/

namespace TSA

/-- Dependency mirrors types.Dependency: a (dep_type, name, version) tuple.
The Go field `Type` is rendered `DepType` because `Type` is a Lean keyword;
`Example` holds the version, as in the source. -/
structure Dependency where
  DepType : String
  Name : String
  Example : String
deriving DecidableEq, Repr

/-- Edge mirrors types.Edge; the Go `Target *Payload` pointer is modelled by
the target payload's id string (which is exactly what Edge.MarshalJSON
serializes). -/
structure Edge where
  Target : String
  Read : Bool
  Write : Bool
deriving DecidableEq, Repr

/-- One content predicate of a rule (a regex pattern with optional
extension/file scope), as consumed by matchers/content.go. -/
structure ContentRule where
  Pattern : String
  Extensions : List String
  Files : List String
deriving DecidableEq, Repr

/-- Modelled from the spec: the full `Rule` struct (with `is_component`,
`is_primary_tech` and `content` fields) is referenced by
component_types.go and matchers/content.go but its declaration is not among
the sources (types/rule.go holds an older revision without these fields).
Fields follow section 3 of the spec and the uses in the sources. `RuleType`
renders the Go field `Type`. -/
structure Rule where
  Tech : String
  Name : String
  RuleType : String
  IsComponent : Option Bool
  IsPrimaryTech : Option Bool
  Dependencies : List Dependency
  Files : List String
  Extensions : List String
  Content : List ContentRule
deriving DecidableEq, Repr

/-- All fields of types.Payload except the child list (ID, Name, Path, Tech,
Techs, Languages, Dependencies, Edges, Licenses, Reason). Languages is the
Go map modelled as an association list. -/
structure PayloadCore where
  ID : String
  Name : String
  Path : List String
  Tech : List String
  Techs : List String
  Languages : List (String × Nat)
  Dependencies : List Dependency
  Edges : List Edge
  Licenses : List String
  Reason : List String
deriving DecidableEq, Repr

/-- Payload mirrors types.Payload: a core of scalar/list fields plus the
`Childs` list of nested payloads. -/
inductive Payload : Type where
  | mk (core : PayloadCore) (Childs : List Payload)

def Payload.core : Payload → PayloadCore
  | .mk c _ => c

def Payload.Childs : Payload → List Payload
  | .mk _ cs => cs

def Payload.modifyCore (p : Payload) (f : PayloadCore → PayloadCore) : Payload :=
  .mk (f p.core) p.Childs

def Payload.setChilds (p : Payload) (cs : List Payload) : Payload :=
  .mk p.core cs

def Payload.ID (p : Payload) : String := p.core.ID
def Payload.Name (p : Payload) : String := p.core.Name
def Payload.Path (p : Payload) : List String := p.core.Path
def Payload.Tech (p : Payload) : List String := p.core.Tech
def Payload.Techs (p : Payload) : List String := p.core.Techs
def Payload.Languages (p : Payload) : List (String × Nat) := p.core.Languages
def Payload.Dependencies (p : Payload) : List Dependency := p.core.Dependencies
def Payload.Edges (p : Payload) : List Edge := p.core.Edges
def Payload.Licenses (p : Payload) : List String := p.core.Licenses
def Payload.Reason (p : Payload) : List String := p.core.Reason

/-- NewPayload mirrors types.NewPayload: all list fields start empty (the Go
`Tech` slice zero value is nil, i.e. empty); the id is passed in explicitly
(the Go code draws it from GenerateID, modelled further below). -/
def NewPayload (id name : String) (paths : List String) : Payload :=
  .mk { ID := id, Name := name, Path := paths, Tech := [], Techs := [],
        Languages := [], Dependencies := [], Edges := [], Licenses := [],
        Reason := [] } []

/-- containsString mirrors Payload.containsString (linear scan). -/
def containsString (slice : List String) (str : String) : Bool :=
  slice.any (fun item => item == str)

/-- containsDependency mirrors Payload.containsDependency: equality of the
(Type, Name, Example) triple. -/
def containsDependency (deps : List Dependency) (dep : Dependency) : Bool :=
  deps.any (fun e => e.DepType == dep.DepType && e.Name == dep.Name && e.Example == dep.Example)

/-- AddPath mirrors Payload.AddPath: append unless already present. -/
def Payload.AddPath (p : Payload) (path : String) : Payload :=
  if containsString p.Path path then p
  else p.modifyCore fun c => { c with Path := c.Path ++ [path] }

/-- AddTech mirrors Payload.AddTech: dedup-append to Techs (never touching
Tech), then dedup-append the reason when non-empty. -/
def Payload.AddTech (p : Payload) (tech reason : String) : Payload :=
  let p1 := if containsString p.Techs tech then p
            else p.modifyCore fun c => { c with Techs := c.Techs ++ [tech] }
  if reason != "" && !(containsString p1.Reason reason) then
    p1.modifyCore fun c => { c with Reason := c.Reason ++ [reason] }
  else p1

/-- AddPrimaryTech mirrors Payload.AddPrimaryTech: dedup-append to the Tech
array only. -/
def Payload.AddPrimaryTech (p : Payload) (tech : String) : Payload :=
  if containsString p.Tech tech then p
  else p.modifyCore fun c => { c with Tech := c.Tech ++ [tech] }

/-- HasPrimaryTech mirrors Payload.HasPrimaryTech. -/
def Payload.HasPrimaryTech (p : Payload) (tech : String) : Bool :=
  containsString p.Tech tech

/-- AddLicense mirrors Payload.AddLicense: dedup-append. -/
def Payload.AddLicense (p : Payload) (license : String) : Payload :=
  if containsString p.Licenses license then p
  else p.modifyCore fun c => { c with Licenses := c.Licenses ++ [license] }

/-- AddDependency mirrors Payload.AddDependency: an unconditional append,
with no duplicate check. -/
def Payload.AddDependency (p : Payload) (dep : Dependency) : Payload :=
  p.modifyCore fun c => { c with Dependencies := c.Dependencies ++ [dep] }

/-- AddEdges mirrors Payload.AddEdges: append an edge to the target with
Read and Write both hard-coded true. -/
def Payload.AddEdges (p : Payload) (target : Payload) : Payload :=
  p.modifyCore fun c => { c with Edges := c.Edges ++ [⟨target.ID, true, true⟩] }

/-- AddLanguage mirrors Payload.AddLanguage: `p.Languages[language]++` on
the Go map, i.e. increment in place or insert with count 1. -/
def addLangCount (ls : List (String × Nat)) (lang : String) (count : Nat) : List (String × Nat) :=
  if ls.any (fun e => e.1 == lang) then
    ls.map (fun e => if e.1 == lang then (e.1, e.2 + count) else e)
  else ls ++ [(lang, count)]

def Payload.AddLanguage (p : Payload) (language : String) : Payload :=
  p.modifyCore fun c => { c with Languages := addLangCount c.Languages language 1 }

/-- The common loop shape of the set-like merges: append each element that
the membership test does not yet find. -/
def dedupAppendBy {α : Type} (c : List α → α → Bool) (xs ys : List α) : List α :=
  ys.foldl (fun xs y => if c xs y then xs else xs ++ [y]) xs

/-- The loop of mergePaths, mergeTechs, mergeLicenses. -/
def dedupAppend (xs ys : List String) : List String :=
  dedupAppendBy containsString xs ys

/-- The loop of mergeDependencies: append each dependency whose
(Type, Name, Example) triple is not yet present. -/
def dedupAppendDeps (xs ys : List Dependency) : List Dependency :=
  dedupAppendBy containsDependency xs ys

/-- The loop of mergeLanguages over the (Tech, Techs) independent field:
for each entry, `xs[lang] += count` on the association list. -/
def mergeLangs (xs ys : List (String × Nat)) : List (String × Nat) :=
  ys.foldl (fun xs e => addLangCount xs e.1 e.2) xs

/-- The loop body of mergeTechField acting on the (Tech, Techs) pair: for a
non-empty tech, AddPrimaryTech (dedup-append into Tech) followed by a
dedup-append into Techs. -/
def mergeTechFieldAux (tt : List String × List String) (tech : String) :
    List String × List String :=
  if tech != "" then
    (if containsString tt.1 tech then tt.1 else tt.1 ++ [tech],
     if containsString tt.2 tech then tt.2 else tt.2 ++ [tech])
  else tt

/-- mergePaths mirrors Payload.mergePaths: dedup-append each path. -/
def Payload.mergePaths (p : Payload) (paths : List String) : Payload :=
  p.modifyCore fun c => { c with Path := dedupAppend c.Path paths }

/-- mergeLanguages mirrors Payload.mergeLanguages:
`p.Languages[lang] += count` for every entry of the other payload. -/
def Payload.mergeLanguages (p : Payload) (languages : List (String × Nat)) : Payload :=
  p.modifyCore fun c => { c with Languages := mergeLangs c.Languages languages }

/-- mergeTechs mirrors Payload.mergeTechs: dedup-append into Techs. -/
def Payload.mergeTechs (p : Payload) (techs : List String) : Payload :=
  p.modifyCore fun c => { c with Techs := dedupAppend c.Techs techs }

/-- mergeTechField mirrors Payload.mergeTechField: for each non-empty tech,
AddPrimaryTech followed by a dedup-append into Techs. -/
def Payload.mergeTechField (p : Payload) (techs : List String) : Payload :=
  p.modifyCore fun c =>
    let r := techs.foldl mergeTechFieldAux (c.Tech, c.Techs)
    { c with Tech := r.1, Techs := r.2 }

/-- mergeDependencies mirrors Payload.mergeDependencies: append each
dependency whose (Type, Name, Example) triple is not yet present. -/
def Payload.mergeDependencies (p : Payload) (deps : List Dependency) : Payload :=
  p.modifyCore fun c => { c with Dependencies := dedupAppendDeps c.Dependencies deps }

/-- mergeLicenses mirrors Payload.mergeLicenses: dedup-append. -/
def Payload.mergeLicenses (p : Payload) (licenses : List String) : Payload :=
  p.modifyCore fun c => { c with Licenses := dedupAppend c.Licenses licenses }

/-- Combine mirrors Payload.Combine: merge paths, languages, techs, the tech
field, dependencies and licenses of the other payload, in that order. -/
def Payload.Combine (p other : Payload) : Payload :=
  (((((p.mergePaths other.Path).mergeLanguages other.Languages).mergeTechs
      other.Techs).mergeTechField other.Tech).mergeDependencies
      other.Dependencies).mergeLicenses other.Licenses

/-- The Go AddChild merge test: skip a child when both tech lists are empty,
otherwise compare names.  This is the loop condition of Payload.AddChild. -/
def addChildMatch (service child : Payload) : Bool :=
  !(child.Tech.isEmpty && service.Tech.isEmpty) && child.Name == service.Name

/-- The merge branch of Payload.AddChild: fold the service's paths through
AddPath, its primary techs through AddPrimaryTech and its dependencies
through AddDependency (which appends unconditionally) into the existing
child. -/
def mergeChildInto (exist service : Payload) : Payload :=
  service.Dependencies.foldl Payload.AddDependency
    (service.Tech.foldl Payload.AddPrimaryTech
      (service.Path.foldl Payload.AddPath exist))

/-- The child-list update of AddChild: replace the first matching child with
the merge result, or append the service at the end when no child matches. -/
def addChildList (service : Payload) : List Payload → List Payload
  | [] => [service]
  | child :: rest =>
    if addChildMatch service child then mergeChildInto child service :: rest
    else child :: addChildList service rest

/-- AddChild mirrors Payload.AddChild: merge into the first same-named child
(when not both tech lists are empty), else append. -/
def Payload.AddChild (p service : Payload) : Payload :=
  p.setChilds (addChildList service p.Childs)

/-- IsNotAComponent mirrors scanner.IsNotAComponent: membership in the
hard-coded set of non-component type names of component_types.go. -/
def IsNotAComponent (techType : String) : Bool :=
  [ "ci", "language", "runtime", "tool", "framework", "validation", "builder",
    "linter", "test", "orm", "package_manager", "ui", "ui_framework", "iac",
    "iconset" ].contains techType

/-- ShouldCreateComponent mirrors scanner.ShouldCreateComponent: the
explicit is_component override when set, otherwise the hard-coded
type-based logic. -/
def ShouldCreateComponent (rule : Rule) : Bool :=
  match rule.IsComponent with
  | some b => b
  | none => !IsNotAComponent rule.RuleType

/-- Modelled from the spec: ShouldAddPrimaryTech is called by the scanner
(rust.go) but its definition is not among the sources; section 4.5 of the
spec: use is_primary_tech when set, else the component decision. -/
def ShouldAddPrimaryTech (rule : Rule) : Bool :=
  match rule.IsPrimaryTech with
  | some b => b
  | none => ShouldCreateComponent rule

/-- removeTechFromPayload mirrors scanner.removeTechFromPayload: filter the
tech out of both the Techs and the Tech arrays (reasons are kept). -/
def removeTechFromPayload (payload : Payload) (tech : String) : Payload :=
  payload.modifyCore fun c =>
    { c with Techs := c.Techs.filter (fun t => t != tech),
             Tech := c.Tech.filter (fun t => t != tech) }

/-- The nanoid alphabet of types.GenerateID. -/
def alphabet : String := "0123456789ABCDEFGHIJKLMNOPQRSTUVWXYZabcdefghijklmnopqrstuvwxyz"

/-- GenerateID mirrors types.GenerateID: twelve characters, each picked from
the 62-character alphabet by a draw from the random source. The crypto/rand
stream is modelled as a function from draw position to the drawn number
(rand.Int yields a value below 62, hence the mod). -/
def GenerateID (randSource : Nat → Nat) (pos : Nat) : String :=
  ⟨(List.range 12).map fun i => alphabet.toList.getD (randSource (pos + i) % 62) '0'⟩

/-- The child payload built inside findImplicitComponent: a fresh payload on
the parent's path, named after the rule, carrying the rule's tech as
primary tech or plain tech according to ShouldAddPrimaryTech, with the
matched-file reason appended. -/
def implicitComponentOf (rule : Rule) (paths : List String)
    (currentPath freshId : String) : Payload :=
  let component := NewPayload freshId rule.Name paths
  let component :=
    if ShouldAddPrimaryTech rule then component.AddPrimaryTech rule.Tech
    else component.AddTech rule.Tech ("matched file: " ++ currentPath)
  component.modifyCore fun c =>
    { c with Reason := c.Reason ++ ["matched file: " ++ currentPath] }

/-- findImplicitComponent mirrors scanner.findImplicitComponent (rust.go):
when the rule creates a component, build a child payload on the parent's
path, give it the rule's tech as primary tech or plain tech according to
ShouldAddPrimaryTech, record the reason, AddChild it, and add an edge to
the freshly built component (not to the AddChild result) for
non-hosting/cloud types when requested. -/
def findImplicitComponent (payload : Payload) (rule : Rule) (currentPath : String)
    (addEdges : Bool) (freshId : String) : Payload :=
  if !ShouldCreateComponent rule then payload
  else
    let component := implicitComponentOf rule payload.Path currentPath freshId
    let payload1 := payload.AddChild component
    if addEdges && rule.RuleType != "hosting" && rule.RuleType != "cloud" then
      payload1.AddEdges component
    else payload1

/-- findImplicitComponentByTech mirrors scanner.findImplicitComponentByTech:
look up the first rule carrying the tech and delegate. -/
def findImplicitComponentByTech (rules : List Rule) (payload : Payload)
    (tech currentPath : String) (addEdges : Bool) (freshId : String) : Payload :=
  match rules.find? (fun r => r.Tech == tech) with
  | some rule => findImplicitComponent payload rule currentPath addEdges freshId
  | none => payload

/-- The action of the mergeTechField loop on one of the two arrays: a
dedup-append guarded by the non-emptiness test of the tech string. -/
def primaryFold (a : List String) (ts : List String) : List String :=
  ts.foldl (fun a t =>
    if t != "" then (if containsString a t then a else a ++ [t]) else a) a

/-- The number of files recorded for a language: the sum of the counts of
all entries carrying the key (the Go map has at most one). -/
def langCount (ls : List (String × Nat)) (lang : String) : Nat :=
  ((ls.filter (fun e => e.1 == lang)).map Prod.snd).sum

/-- Key uniqueness of a languages association list, as holds for every Go
map. -/
def nodupKeys (ls : List (String × Nat)) : Prop :=
  (ls.map Prod.fst).Nodup

mutual

/-- All payload ids of the tree rooted at a payload, following Childs. -/
def treeIds : Payload → List String
  | .mk c cs => c.ID :: treeIdsList cs

def treeIdsList : List Payload → List String
  | [] => []
  | p :: ps => treeIds p ++ treeIdsList ps

end

/-- Duplicate-freeness of a string array, as the spec asserts for tech and
techs. -/
def nodupStr : List String → Bool
  | [] => true
  | x :: xs => !(containsString xs x) && nodupStr xs

/-- Duplicate-freeness of a dependency list with respect to the
(dep_type, name, version) triple. -/
def nodupDeps : List Dependency → Bool
  | [] => true
  | d :: ds => !(containsDependency ds d) && nodupDeps ds

mutual

/-- Every payload of the tree has duplicate-free Tech and Techs arrays. -/
def techNodupTree : Payload → Bool
  | .mk c cs => nodupStr c.Tech && nodupStr c.Techs && techNodupForest cs

def techNodupForest : List Payload → Bool
  | [] => true
  | p :: ps => techNodupTree p && techNodupForest ps

end

mutual

/-- Every payload of the tree has a dependency list with no two entries
sharing the (dep_type, name, version) triple. -/
def depsUniqueTree : Payload → Bool
  | .mk c cs => nodupDeps c.Dependencies && depsUniqueForest cs

def depsUniqueForest : List Payload → Bool
  | [] => true
  | p :: ps => depsUniqueTree p && depsUniqueForest ps

end

mutual

/-- Every edge of every payload of the tree has Read and Write both true. -/
def edgesRWTree : Payload → Bool
  | .mk c cs => c.Edges.all (fun e => e.Read && e.Write) && edgesRWForest cs

def edgesRWForest : List Payload → Bool
  | [] => true
  | p :: ps => edgesRWTree p && edgesRWForest ps

end

/-- The payload-mutating operations named by the invariant claims: AddTech,
AddPrimaryTech, AddChild, Combine and implicit component creation. -/
inductive PayloadOp : Type where
  | addTech (tech reason : String)
  | addPrimaryTech (tech : String)
  | addChild (service : Payload)
  | combine (other : Payload)
  | implicit (rule : Rule) (currentPath : String) (addEdges : Bool) (freshId : String)

/-- Apply one operation to a payload. -/
def applyOp (p : Payload) : PayloadOp → Payload
  | .addTech tech reason => p.AddTech tech reason
  | .addPrimaryTech tech => p.AddPrimaryTech tech
  | .addChild service => p.AddChild service
  | .combine other => p.Combine other
  | .implicit rule currentPath ae freshId =>
      findImplicitComponent p rule currentPath ae freshId

/-- Apply a sequence of operations, left to right. -/
def applyOps (p : Payload) (ops : List PayloadOp) : Payload :=
  ops.foldl applyOp p

/-- An operation is tech-well-formed when any payload it grafts into the
tree itself satisfies the duplicate-freeness invariant. -/
def opTechWF : PayloadOp → Bool
  | .addChild service => techNodupTree service
  | _ => true

/-- An operation is edge-well-formed when any payload it grafts into the
tree itself satisfies the edge-flag invariant. -/
def opEdgesWF : PayloadOp → Bool
  | .addChild service => edgesRWTree service
  | _ => true

/-- A context payload as created at scan start ("main" at the root path). -/
def mainPayload : Payload := NewPayload "id0" "main" ["/"]

/-- A concrete sequence of the claimed operations, used to witness the
invariant-preservation theorems. -/
def opsSample : List PayloadOp :=
  [ .addTech "nodejs" "matched file: package.json",
    .addPrimaryTech "nodejs",
    .implicit { Tech := "postgresql", Name := "PostgreSQL", RuleType := "db",
                IsComponent := none, IsPrimaryTech := none, Dependencies := [],
                Files := [], Extensions := [], Content := [] } "/x" true "cid" ]

/-- A virtual payload carrying one Go file in its languages map, as a
detector would produce for a directory with a single Go source file. -/
def virtualGoPayload : Payload :=
  .mk { ID := "id1", Name := "virtual", Path := ["/"], Tech := [], Techs := [],
        Languages := [("Go", 1)], Dependencies := [], Edges := [], Licenses := [],
        Reason := [] } []

/-- An existing child component named svc with a primary tech and one
dependency, as a first detector invocation would have attached it. -/
def svcChildA : Payload :=
  .mk { ID := "idA", Name := "svc", Path := ["/a"], Tech := ["nodejs"],
        Techs := ["nodejs"], Languages := [], Dependencies := [⟨"npm", "express", "4.18.0"⟩],
        Edges := [], Licenses := [], Reason := [] } []

/-- A same-named service with the same dependency triple, as a second
detector invocation (another directory, same component name) would produce. -/
def svcChildB : Payload :=
  .mk { ID := "idB", Name := "svc", Path := ["/b"], Tech := ["nodejs"],
        Techs := ["nodejs"], Languages := [], Dependencies := [⟨"npm", "express", "4.18.0"⟩],
        Edges := [], Licenses := [], Reason := [] } []

/-- A parent payload already holding the svc child. -/
def parentWithSvc : Payload :=
  .mk { ID := "idP", Name := "main", Path := ["/"], Tech := [], Techs := [],
        Languages := [], Dependencies := [], Edges := [], Licenses := [],
        Reason := [] } [svcChildA]

/-- A db-typed rule with no overrides: the classifier makes it a component
and (per the primary-tech default) a primary tech. -/
def ruleDb : Rule :=
  { Tech := "postgresql", Name := "PostgreSQL", RuleType := "db",
    IsComponent := none, IsPrimaryTech := none, Dependencies := [],
    Files := [], Extensions := [], Content := [] }

/-- A rule whose type appears in no configuration and carries no override. -/
def ruleWidget : Rule :=
  { Tech := "widget", Name := "Widget", RuleType := "widget",
    IsComponent := none, IsPrimaryTech := none, Dependencies := [],
    Files := [], Extensions := [], Content := [] }

/-- A db-typed rule demoted by an explicit is_component override. -/
def ruleDbDemoted : Rule :=
  { Tech := "postgresql", Name := "PostgreSQL", RuleType := "db",
    IsComponent := some false, IsPrimaryTech := none, Dependencies := [],
    Files := [], Extensions := [], Content := [] }

/-- A child as an earlier implicit component creation left it: named like
the PostgreSQL rule, with the primary tech set. -/
def pgChild : Payload :=
  .mk { ID := "cid1", Name := "PostgreSQL", Path := ["/"], Tech := ["postgresql"],
        Techs := [], Languages := [], Dependencies := [], Edges := [],
        Licenses := [], Reason := [] } []

/-- A context payload already holding the PostgreSQL child. -/
def parentWithPg : Payload :=
  .mk { ID := "root", Name := "main", Path := ["/"], Tech := [], Techs := [],
        Languages := [], Dependencies := [], Edges := [], Licenses := [],
        Reason := [] } [pgChild]

/-- strings.HasPrefix, modelled on the character list (the sources only
compare ASCII prefixes, where byte and character prefixes agree). -/
def strStartsWith (s p : String) : Bool :=
  p.toList.isPrefixOf s.toList

/-- strings.HasSuffix, modelled on the character list. -/
def strEndsWith (s p : String) : Bool :=
  p.toList.isSuffixOf s.toList

/-- One entry of the unmarshalled maven dependency list of ParsePomXML
(fields groupId, artifactId, version; an absent version element unmarshals
to the empty string). -/
structure MavenDependency where
  GroupId : String
  ArtifactId : String
  Version : String
deriving DecidableEq, Repr

/-- The properties map lookup used by resolveVersion
(`resolved, exists := properties[propName]`). -/
def lookupProp (properties : List (String × String)) (propName : String) : Option String :=
  (properties.find? (fun e => e.1 == propName)).map Prod.snd

/-- resolveVersion mirrors JavaParser.resolveVersion: empty version becomes
latest; a version of the shape a dollar-brace reference (HasPrefix
and HasSuffix test, property name the slice version[2:len-1], modelled on
characters) is looked up once in the properties, falling back to the
literal reference when undefined; anything else is returned as-is. -/
def resolveVersion (version : String) (properties : List (String × String)) : String :=
  if version == "" then "latest"
  else if strStartsWith version "$\x7b" && strEndsWith version "\x7d" then
    let propName : String := ⟨(version.toList.drop 2).dropLast⟩
    match properties.find? (fun e => e.1 == propName) with
    | some e => e.2
    | none => version
  else version

/-- ParsePomXML mirrors JavaParser.ParsePomXML after the two library steps
(the regex extraction of the properties section and the encoding/xml
unmarshal of the dependencies), whose outputs it takes as arguments: each
dependency with non-empty groupId and artifactId yields a maven tuple
named groupId:artifactId with the resolved version. -/
def ParsePomXML (properties : List (String × String))
    (deps : List MavenDependency) : List Dependency :=
  deps.foldl (fun acc dep =>
    if dep.GroupId != "" && dep.ArtifactId != "" then
      acc ++ [⟨"maven", dep.GroupId ++ ":" ++ dep.ArtifactId,
              resolveVersion dep.Version properties⟩]
    else acc) []

/-- Character count of a string; the sources index and measure ASCII
strings, where Go byte length and character length agree. -/
def strLen (s : String) : Nat := s.toList.length

/-- The character class of the Go regexp escape for whitespace:
tab, newline, form feed, carriage return, space. -/
def isRegexSpace (c : Char) : Bool :=
  c == ' ' || c == '\t' || c == '\n' || c == '\x0c' || c == '\r'

/-- unicode.IsSpace on the ASCII range, as used by strings.TrimSpace:
tab, newline, vertical tab, form feed, carriage return, space. -/
def isGoSpace (c : Char) : Bool :=
  c == ' ' || c == '\t' || c == '\n' || c == '\x0b' || c == '\x0c' || c == '\r'

/-- strings.TrimSpace: drop whitespace from both ends. -/
def goTrimSpace (s : String) : String :=
  ⟨((s.toList.dropWhile isGoSpace).reverse.dropWhile isGoSpace).reverse⟩

/-- strings.Trim with a one-character cutset: drop that character from both
ends. -/
def trimChar (s : String) (q : Char) : String :=
  ⟨((s.toList.dropWhile (fun c => c == q)).reverse.dropWhile (fun c => c == q)).reverse⟩

/-- trimQuotes mirrors dockerComposeState.trimQuotes: strip double quotes,
then single quotes, from both ends. -/
def trimQuotes (s : String) : String :=
  trimChar (trimChar s '"') '\x27'

/-- The Go regexp word character class: letters, digits, underscore. -/
def isWordChar (c : Char) : Bool :=
  c.isAlphanum || c == '_'

/-- DockerService mirrors parsers.DockerService. -/
structure DockerService where
  Name : String
  Image : String
  ContainerName : String
deriving DecidableEq, Repr

/-- FindStringSubmatch of the service regexp (caret, a captured whitespace
run, a captured non-empty run over word characters and hyphen, a colon):
returns the indent length and the name. The maximal runs are forced: the
whitespace run cannot end before a non-space, and a shorter word run would
have to be followed by a word character, never by the required colon. -/
def serviceRegexFind (line : String) : Option (Nat × String) :=
  let ws := line.toList.takeWhile isRegexSpace
  let rest := line.toList.drop ws.length
  let name := rest.takeWhile (fun c => isWordChar c || c == '-')
  if name.isEmpty then none
  else
    match rest.drop name.length with
    | ':' :: _ => some (ws.length, ⟨name⟩)
    | _ => none

/-- FindStringSubmatch of the property regexps (caret, captured whitespace
run, a literal key and colon, a whitespace run, a captured non-empty rest),
composed with the TrimSpace the caller immediately applies to the captured
group: returns the indent length and the trimmed value. The match exists
exactly when something follows the colon, and trimming the second group
equals trimming the whole remainder. -/
def propertyRegexFind (key : String) (line : String) : Option (Nat × String) :=
  let ws := line.toList.takeWhile isRegexSpace
  let rest := line.toList.drop ws.length
  if (key ++ ":").toList.isPrefixOf rest then
    let after := rest.drop (strLen key + 1)
    if after.isEmpty then none
    else some (ws.length, goTrimSpace ⟨after⟩)
  else none

/-- dockerComposeState mirrors the parsing state of ParseDockerCompose. -/
structure DockerComposeState where
  services : List DockerService
  inServices : Bool
  servicesIndent : Nat
  currentService : DockerService
  currentIndent : Nat
deriving DecidableEq, Repr

/-- saveCurrentService mirrors dockerComposeState.saveCurrentService. -/
def saveCurrentService (s : DockerComposeState) : DockerComposeState :=
  if s.currentService.Name != "" then
    { s with services := s.services ++ [s.currentService],
             currentService := ⟨"", "", ""⟩ }
  else s

/-- isLeavingServices mirrors dockerComposeState.isLeavingServices. -/
def isLeavingServices (s : DockerComposeState) (line trimmedLine : String) : Bool :=
  if !(trimmedLine.toList.contains ':') then false
  else decide (strLen line - strLen trimmedLine ≤ s.servicesIndent) &&
    trimmedLine != "services:"

/-- parseServiceDefinition mirrors dockerComposeState.parseServiceDefinition;
none plays the false return (no service definition on this line). -/
def parseServiceDefinition (s : DockerComposeState) (line : String) :
    Option DockerComposeState :=
  match serviceRegexFind line with
  | none => none
  | some (indent, name) =>
    if indent != s.servicesIndent + 2 then none
    else
      let s := saveCurrentService s
      some { s with currentService := ⟨name, "", ""⟩, currentIndent := indent }

/-- parseServiceProperties mirrors dockerComposeState.parseServiceProperties:
first the image property, else the container name, each only when indented
deeper than the current service. -/
def parseServiceProperties (s : DockerComposeState) (line : String) : DockerComposeState :=
  if s.currentService.Name == "" then s
  else
    match propertyRegexFind "image" line with
    | some (ind, value) =>
      if decide (ind > s.currentIndent) then
        { s with currentService := { s.currentService with Image := trimQuotes value } }
      else s
    | none =>
      match propertyRegexFind "container_name" line with
      | some (ind, value) =>
        if decide (ind > s.currentIndent) then
          { s with currentService :=
              { s.currentService with ContainerName := trimQuotes value } }
        else s
      | none => s

/-- parseLine mirrors dockerComposeState.parseLine. -/
def parseLine (s : DockerComposeState) (line : String) : DockerComposeState :=
  let trimmedLine := goTrimSpace line
  if trimmedLine == "" || strStartsWith trimmedLine "#" then s
  else if trimmedLine == "services:" then
    { s with inServices := true,
             servicesIndent := strLen line - strLen trimmedLine }
  else if s.inServices && isLeavingServices s line trimmedLine then
    let s := saveCurrentService s
    { s with inServices := false }
  else if !s.inServices then s
  else
    match parseServiceDefinition s line with
    | some s2 => s2
    | none => parseServiceProperties s line

/-- strings.Split on a single separator character, on character lists. -/
def splitChar (cs : List Char) (sep : Char) : List (List Char) :=
  match cs with
  | [] => [[]]
  | c :: rest =>
    match splitChar rest sep with
    | [] => [[]]
    | h :: t => if c == sep then [] :: h :: t else (c :: h) :: t

/-- ParseDockerCompose mirrors DockerParser.ParseDockerCompose: split into
lines, run the state machine over each line, save the last service. -/
def ParseDockerCompose (content : String) : List DockerService :=
  let lines := (splitChar content.toList '\n').map (fun cs => (⟨cs⟩ : String))
  let parser : DockerComposeState :=
    { services := [], inServices := false, servicesIndent := 0,
      currentService := ⟨"", "", ""⟩, currentIndent := 0 }
  (saveCurrentService (lines.foldl parseLine parser)).services

/-- parseImage mirrors Detector.parseImage. The Go code splits with the
regexp of a colon followed by a greedy dot-star: its leftmost match runs
from the first colon to the end of the string, so Split(image, 2) yields
the text before the first colon and an empty remainder: every tagged image
gets version empty. With no colon there is no match and the whole string
comes back, yielding version latest. -/
def parseImage (image : String) : String × String :=
  if image.toList.contains ':' then
    (⟨image.toList.takeWhile (fun c => c != ':')⟩, "")
  else (image, "latest")

/-- detectDockerCompose mirrors Detector.detectDockerCompose after the file
read: parse the services, build a virtual payload, and add one child per
service with its primary tech, its docker dependency tuple and its
reasons. The dependency matcher (MatchDependencies against the embedded
rule corpus) and the fresh ids are parameters; the arbitrary iteration
order of the matched-techs map is modelled by taking the head of the
matcher's result list. -/
def detectDockerCompose (freshIds : Nat → String)
    (depMatch : String → List (String × List String))
    (content relativeFilePath : String) : Option Payload :=
  let services := ParseDockerCompose content
  if services.isEmpty then none
  else
    let payload := NewPayload (freshIds 0) "virtual" [relativeFilePath]
    some (services.foldl (fun (acc : Payload × Nat) service =>
      match service.Image.toList with
      | '$' :: _ => acc
      | _ =>
        let nv := parseImage service.Image
        if nv.1 == "" then acc
        else
          let serviceName :=
            if service.ContainerName != "" then service.ContainerName else service.Name
          let tr := match depMatch nv.1 with
            | [] => ("", ([] : List String))
            | m :: _ => m
          let tech := if tr.1 == "" then "docker" else tr.1
          let reasons := if tr.2.isEmpty then ["matched: " ++ nv.1] else tr.2
          let child := NewPayload (freshIds acc.2) serviceName [relativeFilePath]
          let child := child.AddPrimaryTech tech
          let child := child.modifyCore fun c =>
            { c with Dependencies := [⟨"docker", nv.1, nv.2⟩] }
          let child := reasons.foldl (fun ch r => ch.AddTech tech r) child
          (acc.1.AddChild child, acc.2 + 1)) (payload, 1)).1

/-- The docker-compose fixture of the claim: one service db with image
postgres colon 15. -/
def composeContent : String := "services:\n  db:\n    image: postgres:15\n"

/-- A dependency matcher knowing the postgres docker rule. -/
def composeDepMatch (name : String) : List (String × List String) :=
  if name == "postgres" then [("postgresql", ["matched dependency: postgres"])] else []

/-- filepath.Ext: the suffix of the name from its last dot (names carry no
path separators here), empty when there is no dot. -/
def fileExt (s : String) : String :=
  if s.toList.contains '.' then
    ⟨'.' :: (s.toList.reverse.takeWhile (fun c => c != '.')).reverse⟩
  else ""

/-- A directory entry as the scanner sees it: the name and type come from
types.File; Content models what provider.ReadFile returns for the file
(none for a read error). -/
structure File where
  Name : String
  FileType : String
  Content : Option String
deriving DecidableEq, Repr

/-- ContentMatcher mirrors matchers.ContentMatcher; the compiled regexp is
kept as its pattern source, matching is a parameter of the scan
environment. -/
structure ContentMatcher where
  Tech : String
  Pattern : String
deriving DecidableEq, Repr

/-- The scan environment: the rule corpus, the content-matcher registry
keyed by extension (matchers.ContentMatcherRegistry.matchers), the regexp
matching function (regexp.MatchString of the Go standard library), and the
crypto/rand stream feeding GenerateID. -/
structure ScanEnv where
  rules : List Rule
  registry : List (String × List ContentMatcher)
  rmatch : String → String → Bool
  randSource : Nat → Nat

/-- HasContentMatchers mirrors ContentMatcherRegistry.HasContentMatchers:
key presence in the registry. -/
def HasContentMatchers (registry : List (String × List ContentMatcher))
    (ext : String) : Bool :=
  (registry.find? (fun e => e.1 == ext)).isSome

/-- The loop body of MatchContent: record the first matching pattern per
tech, skipping techs already matched. -/
def mcFold (rmatch : String → String → Bool) (content : String)
    (results : List (String × List String)) (m : ContentMatcher) :
    List (String × List String) :=
  if results.any (fun r => r.1 == m.Tech) then results
  else if rmatch m.Pattern content then
    results ++ [(m.Tech, ["content matched: " ++ m.Pattern])]
  else results

/-- MatchContent mirrors ContentMatcherRegistry.MatchContent: run the
extension's matchers in order, first match per tech wins. -/
def MatchContent (rmatch : String → String → Bool)
    (registry : List (String × List ContentMatcher)) (ext content : String) :
    List (String × List String) :=
  match registry.find? (fun e => e.1 == ext) with
  | none => []
  | some e => e.2.foldl (mcFold rmatch content) []

/-- getTechsWithContentRules mirrors Scanner.getTechsWithContentRules: the
techs of all rules with at least one content predicate (the Go map set is
modelled as a duplicate-free list in rule order). -/
def getTechsWithContentRules (rules : List Rule) : List String :=
  rules.foldl (fun acc r =>
    if !r.Content.isEmpty && !(acc.contains r.Tech) then acc ++ [r.Tech] else acc) []

/-- The mutable state of Scanner.detectByContent: the context payload, the
matchedTechs set, the validatedTechs set, and the position in the random
id stream. -/
structure ContentScanState where
  ctx : Payload
  matched : List String
  validated : List String
  pos : Nat

/-- findImplicitComponentByTech with the id supply threaded: the fresh id is
drawn from the random stream exactly when a component is created. -/
def findImplicitComponentByTechR (env : ScanEnv) (payload : Payload)
    (tech currentPath : String) (addEdges : Bool) (pos : Nat) : Payload × Nat :=
  match env.rules.find? (fun r => r.Tech == tech) with
  | some rule =>
    (findImplicitComponent payload rule currentPath addEdges
      (GenerateID env.randSource pos),
     if ShouldCreateComponent rule then pos + 12 else pos)
  | none => (payload, pos)

/-- The body of the matched-content loop of detectByContent: mark the tech
validated, add it with its reasons, and on first sighting mark it matched
and consider an implicit component. -/
def contentMatchStep (env : ScanEnv) (currentPath : String)
    (st : ContentScanState) (m : String × List String) : ContentScanState :=
  let validated := if st.validated.contains m.1 then st.validated
                   else st.validated ++ [m.1]
  let ctx := m.2.foldl (fun c r => c.AddTech m.1 r) st.ctx
  if st.matched.contains m.1 then { st with validated := validated, ctx := ctx }
  else
    let r := findImplicitComponentByTechR env ctx m.1 currentPath false st.pos
    { ctx := r.1, matched := st.matched ++ [m.1], validated := validated, pos := r.2 }

/-- The per-file body of detectByContent: skip non-files, empty extensions,
extensions without content matchers and unreadable files; otherwise run
the matched-content loop. -/
def contentFileStep (env : ScanEnv) (currentPath : String)
    (st : ContentScanState) (file : File) : ContentScanState :=
  if file.FileType != "file" then st
  else if fileExt file.Name == "" then st
  else if !(HasContentMatchers env.registry (fileExt file.Name)) then st
  else
    match file.Content with
    | none => st
    | some content =>
      (MatchContent env.rmatch env.registry (fileExt file.Name) content).foldl
        (contentMatchStep env currentPath) st

/-- The body of the revocation loop of detectByContent: a tech matched but
never validated is removed from the context and from the matched set. -/
def contentGateStep (validated : List String) (st : Payload × List String)
    (tech : String) : Payload × List String :=
  if st.2.contains tech && !(validated.contains tech) then
    (removeTechFromPayload st.1 tech, st.2.erase tech)
  else st

/-- detectByContent mirrors Scanner.detectByContent: the file loop collects
content matches and validation marks, then the gate revokes every tech
with content rules that was matched but not validated. -/
def detectByContent (env : ScanEnv) (files : List File) (currentPath : String)
    (ctx : Payload) (matched : List String) (pos : Nat) :
    Payload × List String × Nat :=
  let st := files.foldl (contentFileStep env currentPath) ⟨ctx, matched, [], pos⟩
  let g := (getTechsWithContentRules env.rules).foldl (contentGateStep st.validated)
    (st.ctx, st.matched)
  (g.1, g.2, st.pos)

/-- Character-level substring containment: does the needle occur anywhere in
the haystack? -/
def strContains (hay needle : List Char) : Bool :=
  match hay with
  | [] => needle.isEmpty
  | c :: t => needle.isPrefixOf (c :: t) || strContains t needle

/-- regexp.MatchString for the literal patterns of the spec's gate scenario
(no metacharacter occurs in them, so matching is substring containment). -/
def substringMatch (pat content : String) : Bool :=
  strContains content.toList pat.toList

/-- The compiled content matcher of the mfc rule in the spec's gate
scenario. -/
def mfcMatcher : ContentMatcher := { Tech := "mfc", Pattern := "#include <afx" }

/-- The mfc rule of the spec's gate scenario: extensions .cpp/.h/.hpp and the
single content predicate `#include <afx`. -/
def ruleMfc : Rule :=
  { Tech := "mfc", Name := "Microsoft Foundation Classes",
    RuleType := "ui_framework", IsComponent := none, IsPrimaryTech := none,
    Dependencies := [], Files := [], Extensions := [".cpp", ".h", ".hpp"],
    Content := [{ Pattern := "#include <afx",
                  Extensions := [".cpp", ".h", ".hpp"], Files := [] }] }

/-- The scan environment of the gate scenario: the mfc rule with its content
matchers registered for each of its extensions. -/
def mfcEnv : ScanEnv :=
  { rules := [ruleMfc],
    registry := [(".cpp", [mfcMatcher]), (".h", [mfcMatcher]), (".hpp", [mfcMatcher])],
    rmatch := substringMatch,
    randSource := fun _ => 0 }

/-- The lone C++ source of the gate scenario, containing no afx include. -/
def cppPlain : File :=
  { Name := "main.cpp", FileType := "file", Content := some "int main()\x7b\x7d" }

/-- A C++ source that does include an afx header. -/
def cppAfx : File :=
  { Name := "app.cpp", FileType := "file", Content := some "#include <afxwin.h>" }

/-- The directory context before the content step of the gate scenario: mfc
was detected by extension only. -/
def mfcCtx : Payload :=
  (NewPayload "pid0" "virtual" ["/src"]).AddTech "mfc" "matched extension: .cpp"

/-- Erase the only id-bearing field of an edge: the target id. -/
def eraseEdge (e : Edge) : Edge := { e with Target := "" }

/-- Erase the generated ids of one payload core: blank the ID and every edge
target (edges reference payloads by id). -/
def eraseCore (c : PayloadCore) : PayloadCore :=
  { c with ID := "", Edges := c.Edges.map eraseEdge }

mutual

/-- Erase every generated id in a payload tree; all other data is kept. Two
scans agree modulo the crypto/rand draws exactly when their trees have equal
erasure. -/
def eraseIds : Payload → Payload
  | .mk c cs => .mk (eraseCore c) (eraseIdsList cs)

def eraseIdsList : List Payload → List Payload
  | [] => []
  | p :: ps => eraseIds p :: eraseIdsList ps

end

/-- The compiled content matcher of the determinism scenario. -/
def pgMatcher : ContentMatcher := { Tech := "postgresql", Pattern := "CREATE TABLE" }

/-- A component-creating rule (type db is not in the non-component list), so
a detection draws a fresh id from crypto/rand. -/
def rulePg : Rule :=
  { Tech := "postgresql", Name := "PostgreSQL", RuleType := "db",
    IsComponent := none, IsPrimaryTech := none, Dependencies := [],
    Files := [], Extensions := [".sql"],
    Content := [{ Pattern := "CREATE TABLE", Extensions := [".sql"], Files := [] }] }

/-- The determinism scenario's environment, parameterised over the
crypto/rand stream: identical inputs, possibly different randomness. -/
def pgEnvAt (r : Nat → Nat) : ScanEnv :=
  { rules := [rulePg], registry := [(".sql", [pgMatcher])],
    rmatch := substringMatch, randSource := r }

/-- First run: the random stream yields 0 on every draw. -/
def pgEnvA : ScanEnv := pgEnvAt (fun _ => 0)

/-- Second run: the random stream yields 1 on every draw. -/
def pgEnvB : ScanEnv := pgEnvAt (fun _ => 1)

/-- The lone SQL file of the determinism scenario. -/
def sqlFile : File :=
  { Name := "schema.sql", FileType := "file",
    Content := some "CREATE TABLE users ();" }

/-- The directory payload entering the determinism scenario's content step. -/
def basePg : Payload := NewPayload "rootid" "main" ["/s"]

/-- The per-file body of detectByContent with the iteration order of
`for tech, reasons := range contentMatches` made explicit: Go randomizes
map iteration per run, so the order in which a file's content matches are
processed is an input of the run, modelled as an oracle from the file's
position in the listing and the match list to the sequence processed. The
second state component counts the files seen. -/
def contentFileStepP (env : ScanEnv)
    (ord : Nat → List (String × List String) → List (String × List String))
    (currentPath : String) (st : ContentScanState × Nat) (file : File) :
    ContentScanState × Nat :=
  (if file.FileType != "file" then st.1
   else if fileExt file.Name == "" then st.1
   else if !(HasContentMatchers env.registry (fileExt file.Name)) then st.1
   else
     match file.Content with
     | none => st.1
     | some content =>
       (ord st.2 (MatchContent env.rmatch env.registry (fileExt file.Name)
         content)).foldl (contentMatchStep env currentPath) st.1,
   st.2 + 1)

/-- detectByContent with the content-match iteration order explicit; the
identity order recovers detectByContent. The gate loop also ranges over a
Go map (techsNeedingValidation), but its steps commute, so its order is
irrelevant and stays linearized. -/
def detectByContentP (env : ScanEnv)
    (ord : Nat → List (String × List String) → List (String × List String))
    (files : List File) (currentPath : String) (ctx : Payload)
    (matched : List String) (pos : Nat) : Payload × List String × Nat :=
  let st := (files.foldl (contentFileStepP env ord currentPath)
    (⟨ctx, matched, [], pos⟩, 0)).1
  let g := (getTechsWithContentRules env.rules).foldl (contentGateStep st.validated)
    (st.ctx, st.matched)
  (g.1, g.2, st.pos)

/-- One possible map-iteration order: the insertion order of the match
list. -/
def idOrd : Nat → List (String × List String) → List (String × List String) :=
  fun _ ms => ms

/-- Another possible map-iteration order: the reverse of the insertion
order. -/
def revOrd : Nat → List (String × List String) → List (String × List String) :=
  fun _ ms => ms.reverse

/-- A second content matcher on the same extension, for the order-dependence
counterexample. -/
def myMatcher : ContentMatcher := { Tech := "mysql", Pattern := "ENGINE=InnoDB" }

/-- A second component-creating rule with a content predicate on .sql. -/
def ruleMy : Rule :=
  { Tech := "mysql", Name := "MySQL", RuleType := "db",
    IsComponent := none, IsPrimaryTech := none, Dependencies := [],
    Files := [], Extensions := [".sql"],
    Content := [{ Pattern := "ENGINE=InnoDB", Extensions := [".sql"],
                  Files := [] }] }

/-- An environment where one file can match two content rules, so the match
map holds two techs and its iteration order becomes observable. -/
def ordEnv : ScanEnv :=
  { rules := [rulePg, ruleMy], registry := [(".sql", [pgMatcher, myMatcher])],
    rmatch := substringMatch, randSource := fun _ => 0 }

/-- An SQL file satisfying both content predicates of ordEnv. -/
def dualFile : File :=
  { Name := "schema.sql", FileType := "file",
    Content := some "CREATE TABLE t (id INT) ENGINE=InnoDB;" }

/-! Basic lemmas about the membership tests and the dedup-append loops. -/

@[simp]
theorem core_mk (c : PayloadCore) (cs : List Payload) : (Payload.mk c cs).core = c := rfl

@[simp]
theorem Childs_mk (c : PayloadCore) (cs : List Payload) : (Payload.mk c cs).Childs = cs := rfl

@[simp]
theorem ID_mk (c : PayloadCore) (cs : List Payload) : (Payload.mk c cs).ID = c.ID := rfl

@[simp]
theorem Name_mk (c : PayloadCore) (cs : List Payload) : (Payload.mk c cs).Name = c.Name := rfl

@[simp]
theorem Path_mk (c : PayloadCore) (cs : List Payload) : (Payload.mk c cs).Path = c.Path := rfl

@[simp]
theorem Tech_mk (c : PayloadCore) (cs : List Payload) : (Payload.mk c cs).Tech = c.Tech := rfl

@[simp]
theorem Techs_mk (c : PayloadCore) (cs : List Payload) : (Payload.mk c cs).Techs = c.Techs := rfl

@[simp]
theorem Languages_mk (c : PayloadCore) (cs : List Payload) :
    (Payload.mk c cs).Languages = c.Languages := rfl

@[simp]
theorem Dependencies_mk (c : PayloadCore) (cs : List Payload) :
    (Payload.mk c cs).Dependencies = c.Dependencies := rfl

@[simp]
theorem Edges_mk (c : PayloadCore) (cs : List Payload) : (Payload.mk c cs).Edges = c.Edges := rfl

@[simp]
theorem Licenses_mk (c : PayloadCore) (cs : List Payload) :
    (Payload.mk c cs).Licenses = c.Licenses := rfl

@[simp]
theorem Reason_mk (c : PayloadCore) (cs : List Payload) :
    (Payload.mk c cs).Reason = c.Reason := rfl

theorem containsString_iff {xs : List String} {a : String} :
    containsString xs a = true ↔ a ∈ xs := by
  simp [containsString]

theorem containsDependency_iff {xs : List Dependency} {d : Dependency} :
    containsDependency xs d = true ↔ d ∈ xs := by
  have hpt : ∀ e : Dependency,
      ((e.DepType == d.DepType && e.Name == d.Name && e.Example == d.Example) = true) ↔ e = d := by
    intro e
    cases e
    cases d
    simp [Dependency.mk.injEq, and_assoc]
  simp only [containsDependency, List.any_eq_true]
  constructor
  · rintro ⟨e, he, hpe⟩
    exact ((hpt e).mp hpe) ▸ he
  · intro h
    exact ⟨d, h, (hpt d).mpr rfl⟩

theorem dedupAppendBy_cons {α : Type} (c : List α → α → Bool) (xs : List α) (y : α)
    (ys : List α) :
    dedupAppendBy c xs (y :: ys) =
      dedupAppendBy c (if c xs y then xs else xs ++ [y]) ys := rfl

theorem mem_dedupAppendBy_left {α : Type} {c : List α → α → Bool} {a : α} {xs : List α}
    (ys : List α) (h : a ∈ xs) : a ∈ dedupAppendBy c xs ys := by
  induction ys generalizing xs with
  | nil => exact h
  | cons y ys ih =>
    rw [dedupAppendBy_cons]
    cases hc : c xs y with
    | true => simpa using ih h
    | false => simpa using ih (List.mem_append_left _ h)

theorem mem_dedupAppendBy_right {α : Type} {c : List α → α → Bool}
    (hc : ∀ xs y, c xs y = true ↔ y ∈ xs) {a : α} {xs ys : List α}
    (h : a ∈ ys) : a ∈ dedupAppendBy c xs ys := by
  induction ys generalizing xs with
  | nil => cases h
  | cons y ys ih =>
    rw [dedupAppendBy_cons]
    rcases List.mem_cons.mp h with rfl | h'
    · cases hcy : c xs a with
      | true => simpa using mem_dedupAppendBy_left (c := c) ys ((hc xs a).mp hcy)
      | false =>
        simpa using
          mem_dedupAppendBy_left (c := c) ys
            (List.mem_append_right _ (List.mem_singleton.mpr rfl))
    · cases hcy : c xs y with
      | true => simpa using ih h'
      | false => simpa using ih h'

theorem dedupAppendBy_eq_self {α : Type} {c : List α → α → Bool}
    (hc : ∀ xs y, c xs y = true ↔ y ∈ xs) {xs ys : List α}
    (h : ∀ a ∈ ys, a ∈ xs) : dedupAppendBy c xs ys = xs := by
  induction ys with
  | nil => rfl
  | cons y ys ih =>
    rw [dedupAppendBy_cons]
    have hy : c xs y = true := (hc xs y).mpr (h y (List.mem_cons_self y ys))
    simp only [hy]
    simpa using ih fun a ha => h a (List.mem_cons_of_mem _ ha)

theorem nodup_dedupAppendBy {α : Type} {c : List α → α → Bool}
    (hc : ∀ xs y, c xs y = true ↔ y ∈ xs) {xs : List α} (ys : List α)
    (h : xs.Nodup) : (dedupAppendBy c xs ys).Nodup := by
  induction ys generalizing xs with
  | nil => exact h
  | cons y ys ih =>
    rw [dedupAppendBy_cons]
    cases hcy : c xs y with
    | true => simpa using ih h
    | false =>
      have hy : y ∉ xs := fun hm => by simp [(hc xs y).mpr hm] at hcy
      simpa using ih (by simp [List.nodup_append, h, hy])

@[simp]
theorem core_modifyCore (p : Payload) (f : PayloadCore → PayloadCore) :
    (p.modifyCore f).core = f p.core := by
  cases p; rfl

@[simp]
theorem Childs_modifyCore (p : Payload) (f : PayloadCore → PayloadCore) :
    (p.modifyCore f).Childs = p.Childs := by
  cases p; rfl

@[simp]
theorem core_setChilds (p : Payload) (cs : List Payload) :
    (p.setChilds cs).core = p.core := by
  cases p; rfl

@[simp]
theorem Childs_setChilds (p : Payload) (cs : List Payload) :
    (p.setChilds cs).Childs = cs := by
  cases p; rfl

theorem foldl_mergeTechFieldAux (ts : List String) (a b : List String) :
    ts.foldl mergeTechFieldAux (a, b) = (primaryFold a ts, primaryFold b ts) := by
  induction ts generalizing a b with
  | nil => rfl
  | cons t ts ih =>
    simp only [List.foldl_cons, primaryFold, mergeTechFieldAux]
    by_cases ht : (t != "") = true
    · simp only [ht, if_true]
      exact ih _ _
    · simp only [ht, if_false]
      exact ih a b

theorem primaryFold_cons (a : List String) (t : String) (ts : List String) :
    primaryFold a (t :: ts) =
      primaryFold (if t != "" then (if containsString a t then a else a ++ [t]) else a) ts :=
  rfl

theorem mem_primaryFold_left {x : String} {a : List String} (ts : List String)
    (h : x ∈ a) : x ∈ primaryFold a ts := by
  induction ts generalizing a with
  | nil => exact h
  | cons t ts ih =>
    rw [primaryFold_cons]
    by_cases ht : (t != "") = true
    · simp only [ht, if_true]
      cases hc : containsString a t with
      | true => simpa using ih h
      | false => simpa using ih (List.mem_append_left _ h)
    · simp only [ht, if_false]
      exact ih h

theorem mem_primaryFold_self {x : String} {a : List String} {ts : List String}
    (h : x ∈ ts) (hx : x ≠ "") : x ∈ primaryFold a ts := by
  induction ts generalizing a with
  | nil => cases h
  | cons t ts ih =>
    rw [primaryFold_cons]
    rcases List.mem_cons.mp h with rfl | h'
    · have ht : (x != "") = true := by simpa using hx
      simp only [ht, if_true]
      cases hc : containsString a x with
      | true => simpa using mem_primaryFold_left ts (containsString_iff.mp hc)
      | false =>
        simpa using
          mem_primaryFold_left ts (List.mem_append_right _ (List.mem_singleton.mpr rfl))
    · by_cases ht : (t != "") = true
      · simp only [ht, if_true]
        cases hc : containsString a t with
        | true => simpa using ih h'
        | false => simpa using ih h'
      · simp only [ht, if_false]
        exact ih h'

theorem primaryFold_eq_self {a : List String} {ts : List String}
    (h : ∀ t ∈ ts, t = "" ∨ t ∈ a) : primaryFold a ts = a := by
  induction ts with
  | nil => rfl
  | cons t ts ih =>
    rw [primaryFold_cons]
    rcases h t (List.mem_cons_self t ts) with rfl | hm
    · simp only [bne_self_eq_false, if_false]
      exact ih fun x hx => h x (List.mem_cons_of_mem _ hx)
    · have hc : containsString a t = true := containsString_iff.mpr hm
      simp only [hc, if_true, ite_self]
      exact ih fun x hx => h x (List.mem_cons_of_mem _ hx)

theorem nodup_primaryFold {a : List String} (ts : List String)
    (h : a.Nodup) : (primaryFold a ts).Nodup := by
  induction ts generalizing a with
  | nil => exact h
  | cons t ts ih =>
    rw [primaryFold_cons]
    by_cases ht : (t != "") = true
    · simp only [ht, if_true]
      cases hc : containsString a t with
      | true => simpa using ih h
      | false =>
        have hm : t ∉ a := fun hm => by simp [containsString_iff.mpr hm] at hc
        simpa using ih (by simp [List.nodup_append, h, hm])
    · simp only [ht, if_false]
      exact ih h

theorem langCount_cons (e : String × Nat) (ls : List (String × Nat)) (k : String) :
    langCount (e :: ls) k = (if e.1 == k then e.2 else 0) + langCount ls k := by
  by_cases h : (e.1 == k) = true <;> simp [langCount, h]

theorem langCount_append (xs ys : List (String × Nat)) (k : String) :
    langCount (xs ++ ys) k = langCount xs k + langCount ys k := by
  simp [langCount, List.filter_append]

theorem langCount_mapAdd {l : String} {c : Nat} {xs : List (String × Nat)}
    (h : nodupKeys xs) (k : String) :
    langCount (xs.map fun e => if e.1 == l then (e.1, e.2 + c) else e) k
      = langCount xs k
        + (if (l == k) = true ∧ xs.any (fun e => e.1 == l) = true then c else 0) := by
  induction xs with
  | nil => simp [langCount]
  | cons e xs ih =>
    have h' : nodupKeys xs := (List.nodup_cons.mp h).2
    have hnotin : e.1 ∉ xs.map Prod.fst := (List.nodup_cons.mp h).1
    rw [List.map_cons]
    by_cases hel : (e.1 == l) = true
    · have hel' : e.1 = l := by simpa using hel
      have hany : xs.any (fun e => e.1 == l) = false := by
        rw [List.any_eq_false]
        intro x hx
        intro hxl
        exact hnotin (by
          refine List.mem_map.mpr ⟨x, hx, ?_⟩
          have : x.1 = l := by simpa using hxl
          rw [this, hel'])
      rw [hel', if_pos (by simp)]
      rw [langCount_cons, langCount_cons, ih h']
      simp only [hany]
      by_cases hlk : (l == k) = true
      · simp [hlk, hel']
        omega
      · simp [hlk, hel']
    · have hel' : (e.1 == l) = false := by simpa using hel
      simp only [hel', Bool.false_eq_true, if_false]
      rw [langCount_cons, langCount_cons, ih h']
      simp only [List.any_cons, hel', Bool.false_or]
      omega

theorem langCount_addLangCount {xs : List (String × Nat)} {l : String} {c : Nat}
    (h : nodupKeys xs) (k : String) :
    langCount (addLangCount xs l c) k = langCount xs k + (if l == k then c else 0) := by
  unfold addLangCount
  by_cases ha : xs.any (fun e => e.1 == l) = true
  · rw [if_pos ha, langCount_mapAdd h k]
    by_cases hlk : (l == k) = true <;> simp [hlk, ha]
  · rw [if_neg ha, langCount_append, langCount_cons]
    simp [langCount]

theorem nodupKeys_addLangCount {xs : List (String × Nat)} {l : String} {c : Nat}
    (h : nodupKeys xs) : nodupKeys (addLangCount xs l c) := by
  unfold addLangCount
  by_cases ha : xs.any (fun e => e.1 == l) = true
  · rw [if_pos ha]
    unfold nodupKeys at *
    have hfun : (Prod.fst ∘ fun e : String × Nat => if e.1 == l then (e.1, e.2 + c) else e)
        = Prod.fst := by
      funext e
      by_cases he : e.1 = l
      · simp [he]
      · simp [he]
    rw [List.map_map, hfun]
    exact h
  · rw [if_neg ha]
    unfold nodupKeys at *
    have hl : l ∉ xs.map Prod.fst := by
      intro hm
      rcases List.mem_map.mp hm with ⟨e, he, hfst⟩
      have : xs.any (fun e => e.1 == l) = true :=
        List.any_eq_true.mpr ⟨e, he, by simpa using hfst⟩
      exact ha this
    simp [List.nodup_append, h, hl]

theorem mergeLangs_cons (xs : List (String × Nat)) (e : String × Nat)
    (ys : List (String × Nat)) :
    mergeLangs xs (e :: ys) = mergeLangs (addLangCount xs e.1 e.2) ys := rfl

theorem nodupKeys_mergeLangs {xs : List (String × Nat)} (ys : List (String × Nat))
    (h : nodupKeys xs) : nodupKeys (mergeLangs xs ys) := by
  induction ys generalizing xs with
  | nil => exact h
  | cons e ys ih =>
    rw [mergeLangs_cons]
    exact ih (nodupKeys_addLangCount h)

theorem langCount_mergeLangs {xs ys : List (String × Nat)} (h : nodupKeys xs) (k : String) :
    langCount (mergeLangs xs ys) k = langCount xs k + langCount ys k := by
  induction ys generalizing xs with
  | nil => simp [mergeLangs, langCount]
  | cons e ys ih =>
    rw [mergeLangs_cons, ih (nodupKeys_addLangCount h), langCount_addLangCount h,
      langCount_cons]
    by_cases he : (e.1 == k) = true
    · simp [he]
      omega
    · simp [he]

theorem containsString_spec : ∀ (xs : List String) (y : String),
    containsString xs y = true ↔ y ∈ xs := fun _ _ => containsString_iff

theorem containsDependency_spec : ∀ (xs : List Dependency) (y : Dependency),
    containsDependency xs y = true ↔ y ∈ xs := fun _ _ => containsDependency_iff

theorem Path_Combine (p other : Payload) :
    (p.Combine other).Path = dedupAppend p.Path other.Path := by
  cases p
  simp [Payload.Combine, Payload.mergePaths, Payload.mergeLanguages, Payload.mergeTechs,
    Payload.mergeTechField, Payload.mergeDependencies, Payload.mergeLicenses,
    Payload.modifyCore, Payload.Path, Payload.core]

theorem Languages_Combine (p other : Payload) :
    (p.Combine other).Languages = mergeLangs p.Languages other.Languages := by
  cases p
  simp [Payload.Combine, Payload.mergePaths, Payload.mergeLanguages, Payload.mergeTechs,
    Payload.mergeTechField, Payload.mergeDependencies, Payload.mergeLicenses,
    Payload.modifyCore, Payload.Languages, Payload.core]

theorem Tech_Combine (p other : Payload) :
    (p.Combine other).Tech = primaryFold p.Tech other.Tech := by
  cases p
  simp [Payload.Combine, Payload.mergePaths, Payload.mergeLanguages, Payload.mergeTechs,
    Payload.mergeTechField, Payload.mergeDependencies, Payload.mergeLicenses,
    Payload.modifyCore, Payload.Tech, Payload.core, foldl_mergeTechFieldAux]

theorem Techs_Combine (p other : Payload) :
    (p.Combine other).Techs = primaryFold (dedupAppend p.Techs other.Techs) other.Tech := by
  cases p
  simp [Payload.Combine, Payload.mergePaths, Payload.mergeLanguages, Payload.mergeTechs,
    Payload.mergeTechField, Payload.mergeDependencies, Payload.mergeLicenses,
    Payload.modifyCore, Payload.Techs, Payload.core, foldl_mergeTechFieldAux]

theorem Dependencies_Combine (p other : Payload) :
    (p.Combine other).Dependencies = dedupAppendDeps p.Dependencies other.Dependencies := by
  cases p
  simp [Payload.Combine, Payload.mergePaths, Payload.mergeLanguages, Payload.mergeTechs,
    Payload.mergeTechField, Payload.mergeDependencies, Payload.mergeLicenses,
    Payload.modifyCore, Payload.Dependencies, Payload.core]

theorem Licenses_Combine (p other : Payload) :
    (p.Combine other).Licenses = dedupAppend p.Licenses other.Licenses := by
  cases p
  simp [Payload.Combine, Payload.mergePaths, Payload.mergeLanguages, Payload.mergeTechs,
    Payload.mergeTechField, Payload.mergeDependencies, Payload.mergeLicenses,
    Payload.modifyCore, Payload.Licenses, Payload.core]

theorem dedupAppend_cons (xs : List String) (y : String) (ys : List String) :
    dedupAppend xs (y :: ys) =
      dedupAppend (if containsString xs y then xs else xs ++ [y]) ys := rfl

theorem dedupAppendDeps_cons (xs : List Dependency) (y : Dependency) (ys : List Dependency) :
    dedupAppendDeps xs (y :: ys) =
      dedupAppendDeps (if containsDependency xs y then xs else xs ++ [y]) ys := rfl

theorem AddPath_eq (e : Payload) (q : String) :
    e.AddPath q =
      .mk { e.core with
            Path := if containsString e.core.Path q then e.core.Path
                    else e.core.Path ++ [q] } e.Childs := by
  cases e with
  | mk c cs =>
    unfold Payload.AddPath
    cases hc : containsString c.Path q <;> simp [Payload.modifyCore, hc]

theorem foldl_AddPath_eq (ps : List String) (e : Payload) :
    ps.foldl Payload.AddPath e =
      .mk { e.core with Path := dedupAppend e.core.Path ps } e.Childs := by
  induction ps generalizing e with
  | nil => cases e; simp [dedupAppend, dedupAppendBy]
  | cons q ps ih =>
    rw [List.foldl_cons, ih, AddPath_eq, dedupAppend_cons]
    cases e with
    | mk c cs => cases hc : containsString c.Path q <;> simp [hc]

theorem AddPrimaryTech_eq (e : Payload) (t : String) :
    e.AddPrimaryTech t =
      .mk { e.core with
            Tech := if containsString e.core.Tech t then e.core.Tech
                    else e.core.Tech ++ [t] } e.Childs := by
  cases e with
  | mk c cs =>
    unfold Payload.AddPrimaryTech
    cases hc : containsString c.Tech t <;> simp [Payload.modifyCore, hc]

theorem foldl_AddPrimaryTech_eq (ts : List String) (e : Payload) :
    ts.foldl Payload.AddPrimaryTech e =
      .mk { e.core with Tech := dedupAppend e.core.Tech ts } e.Childs := by
  induction ts generalizing e with
  | nil => cases e; simp [dedupAppend, dedupAppendBy]
  | cons t ts ih =>
    rw [List.foldl_cons, ih, AddPrimaryTech_eq, dedupAppend_cons]
    cases e with
    | mk c cs => cases hc : containsString c.Tech t <;> simp [hc]

theorem foldl_AddDependency_eq (ds : List Dependency) (e : Payload) :
    ds.foldl Payload.AddDependency e =
      .mk { e.core with Dependencies := e.core.Dependencies ++ ds } e.Childs := by
  induction ds generalizing e with
  | nil => cases e; simp
  | cons d ds ih =>
    rw [List.foldl_cons, ih]
    cases e with
    | mk c cs => simp [Payload.AddDependency, Payload.modifyCore]

theorem mergeChildInto_eq (exist service : Payload) :
    mergeChildInto exist service =
      .mk { exist.core with
            Path := dedupAppend exist.core.Path service.Path,
            Tech := dedupAppend exist.core.Tech service.Tech,
            Dependencies := exist.core.Dependencies ++ service.Dependencies }
        exist.Childs := by
  unfold mergeChildInto
  rw [foldl_AddPath_eq, foldl_AddPrimaryTech_eq, foldl_AddDependency_eq]
  cases exist with
  | mk c cs => simp

theorem nodupStr_iff {xs : List String} : nodupStr xs = true ↔ xs.Nodup := by
  induction xs with
  | nil => simp [nodupStr]
  | cons x xs ih =>
    simp only [nodupStr, Bool.and_eq_true, Bool.not_eq_true', List.nodup_cons, ih]
    rw [show (containsString xs x = false) ↔ ¬(containsString xs x = true) by simp,
      containsString_iff, and_comm]

theorem nodupDeps_iff {ds : List Dependency} : nodupDeps ds = true ↔ ds.Nodup := by
  induction ds with
  | nil => simp [nodupDeps]
  | cons d ds ih =>
    simp only [nodupDeps, Bool.and_eq_true, Bool.not_eq_true', List.nodup_cons, ih]
    rw [show (containsDependency ds d = false) ↔ ¬(containsDependency ds d = true) by simp,
      containsDependency_iff, and_comm]

theorem Childs_Combine (p other : Payload) : (p.Combine other).Childs = p.Childs := by
  cases p
  simp [Payload.Combine, Payload.mergePaths, Payload.mergeLanguages, Payload.mergeTechs,
    Payload.mergeTechField, Payload.mergeDependencies, Payload.mergeLicenses,
    Payload.modifyCore]

/-- C6, counterexample: dependency uniqueness is not preserved by AddChild.
A parent already holds a child svc with the npm express dependency; adding a
same-named service carrying the same (dep_type, name, version) triple
merges via AddDependency, which appends unconditionally, leaving the child
with two identical dependency entries. -/
theorem C6_addChild_merge_duplicates_dependency :
    depsUniqueTree parentWithSvc = true ∧
    depsUniqueTree (parentWithSvc.AddChild svcChildB) = false := by
  constructor <;> decide

/-- C6, amended: uniqueness by the (dep_type, name, version) triple is
maintained by Combine (whose mergeDependencies checks the triple before
appending), but not by the AddChild merge of a same-named child or the
multi-detector merge, which append through AddDependency unconditionally. -/
theorem C6_combine_preserves_dep_uniqueness (p other : Payload)
    (h : depsUniqueTree p = true) : depsUniqueTree (p.Combine other) = true := by
  have hdep := Dependencies_Combine p other
  have hch := Childs_Combine p other
  cases p with
  | mk c cs =>
    cases hq : (Payload.mk c cs).Combine other with
    | mk c2 cs2 =>
      rw [hq] at hdep hch
      simp only [Dependencies_mk, Childs_mk] at hdep hch
      simp only [depsUniqueTree, Bool.and_eq_true] at h ⊢
      subst hch
      refine ⟨?_, h.2⟩
      rw [show c2.Dependencies = dedupAppendDeps c.Dependencies other.Dependencies from hdep]
      exact nodupDeps_iff.mpr
        (nodup_dedupAppendBy containsDependency_spec _ (nodupDeps_iff.mp h.1))

/-- C6, witness for the amended theorem at a concrete input. -/
theorem C6_combine_preserves_dep_uniqueness_witness :
    depsUniqueTree parentWithSvc = true ∧
    depsUniqueTree (parentWithSvc.Combine svcChildB) = true :=
  ⟨by decide, C6_combine_preserves_dep_uniqueness parentWithSvc svcChildB (by decide)⟩

theorem AddTech_eq (e : Payload) (t r : String) :
    e.AddTech t r =
      .mk { e.core with
            Techs := if containsString e.core.Techs t then e.core.Techs
                     else e.core.Techs ++ [t],
            Reason := if r != "" && !(containsString e.core.Reason r) then
                        e.core.Reason ++ [r]
                      else e.core.Reason } e.Childs := by
  cases e with
  | mk c cs =>
    unfold Payload.AddTech
    cases hc : containsString c.Techs t <;>
      cases hr : (r != "" && !(containsString c.Reason r)) <;>
        simp [Payload.modifyCore, hc, hr]

theorem AddEdges_eq (e target : Payload) :
    e.AddEdges target =
      .mk { e.core with Edges := e.core.Edges ++ [⟨target.ID, true, true⟩] } e.Childs := by
  cases e
  simp [Payload.AddEdges, Payload.modifyCore]

theorem nodupStr_step {xs : List String} (t : String) (h : nodupStr xs = true) :
    nodupStr (if containsString xs t then xs else xs ++ [t]) = true := by
  cases hc : containsString xs t with
  | true => simpa using h
  | false =>
    have ht : t ∉ xs := fun hm => by simp [containsString_iff.mpr hm] at hc
    simpa using nodupStr_iff.mpr (by simp [List.nodup_append, nodupStr_iff.mp h, ht])

theorem nodupStr_dedupAppend {xs : List String} (ys : List String)
    (h : nodupStr xs = true) : nodupStr (dedupAppend xs ys) = true :=
  nodupStr_iff.mpr (nodup_dedupAppendBy containsString_spec ys (nodupStr_iff.mp h))

theorem nodupStr_primaryFold {xs : List String} (ts : List String)
    (h : nodupStr xs = true) : nodupStr (primaryFold xs ts) = true :=
  nodupStr_iff.mpr (nodup_primaryFold ts (nodupStr_iff.mp h))

theorem techNodup_mk {c : PayloadCore} {cs : List Payload} :
    techNodupTree (.mk c cs) = true ↔
      nodupStr c.Tech = true ∧ nodupStr c.Techs = true ∧ techNodupForest cs = true := by
  simp [techNodupTree, Bool.and_eq_true, and_assoc]

theorem edgesRW_mk {c : PayloadCore} {cs : List Payload} :
    edgesRWTree (.mk c cs) = true ↔
      c.Edges.all (fun e => e.Read && e.Write) = true ∧ edgesRWForest cs = true := by
  simp [edgesRWTree, Bool.and_eq_true]

theorem techNodup_AddTech {p : Payload} (t r : String) (h : techNodupTree p = true) :
    techNodupTree (p.AddTech t r) = true := by
  cases p with
  | mk c cs =>
    rw [AddTech_eq]
    rcases techNodup_mk.mp h with ⟨h1, h2, h3⟩
    exact techNodup_mk.mpr ⟨h1, nodupStr_step t h2, by simpa using h3⟩

theorem techNodup_AddPrimaryTech {p : Payload} (t : String) (h : techNodupTree p = true) :
    techNodupTree (p.AddPrimaryTech t) = true := by
  cases p with
  | mk c cs =>
    rw [AddPrimaryTech_eq]
    rcases techNodup_mk.mp h with ⟨h1, h2, h3⟩
    exact techNodup_mk.mpr ⟨nodupStr_step t h1, h2, by simpa using h3⟩

theorem techNodup_Combine {p : Payload} (other : Payload) (h : techNodupTree p = true) :
    techNodupTree (p.Combine other) = true := by
  have htech := Tech_Combine p other
  have htechs := Techs_Combine p other
  have hch := Childs_Combine p other
  cases p with
  | mk c cs =>
    cases hq : (Payload.mk c cs).Combine other with
    | mk c2 cs2 =>
      rw [hq] at htech htechs hch
      simp only [Tech_mk, Techs_mk, Childs_mk] at htech htechs hch
      rcases techNodup_mk.mp h with ⟨h1, h2, h3⟩
      subst hch
      refine techNodup_mk.mpr ⟨?_, ?_, h3⟩
      · rw [show c2.Tech = primaryFold c.Tech other.Tech from htech]
        exact nodupStr_primaryFold _ h1
      · rw [show c2.Techs = primaryFold (dedupAppend c.Techs other.Techs) other.Tech from
          htechs]
        exact nodupStr_primaryFold _ (nodupStr_dedupAppend _ h2)

theorem techNodup_mergeChildInto {child service : Payload}
    (h : techNodupTree child = true) :
    techNodupTree (mergeChildInto child service) = true := by
  cases child with
  | mk c cs =>
    rw [mergeChildInto_eq]
    rcases techNodup_mk.mp h with ⟨h1, h2, h3⟩
    exact techNodup_mk.mpr ⟨nodupStr_dedupAppend _ h1, h2, by simpa using h3⟩

theorem techNodupForest_addChildList {service : Payload} {cs : List Payload}
    (hs : techNodupTree service = true) (h : techNodupForest cs = true) :
    techNodupForest (addChildList service cs) = true := by
  induction cs with
  | nil => simp [addChildList, techNodupForest, hs]
  | cons child rest ih =>
    simp only [techNodupForest, Bool.and_eq_true] at h
    cases hm : addChildMatch service child with
    | true =>
      simp only [addChildList, hm, if_true]
      simp [techNodupForest, techNodup_mergeChildInto h.1, h.2]
    | false =>
      simp only [addChildList, hm, Bool.false_eq_true, if_false]
      simp [techNodupForest, h.1, ih h.2]

theorem techNodup_AddChild {p service : Payload} (hs : techNodupTree service = true)
    (h : techNodupTree p = true) : techNodupTree (p.AddChild service) = true := by
  cases p with
  | mk c cs =>
    rcases techNodup_mk.mp h with ⟨h1, h2, h3⟩
    unfold Payload.AddChild
    refine techNodup_mk.mpr ⟨by simpa using h1, by simpa using h2, ?_⟩
    simpa using techNodupForest_addChildList hs h3

theorem techNodup_modifyReason {p : Payload} (f : List String → List String)
    (h : techNodupTree p = true) :
    techNodupTree (p.modifyCore fun c => { c with Reason := f c.Reason }) = true := by
  cases p with
  | mk c cs =>
    rcases techNodup_mk.mp h with ⟨h1, h2, h3⟩
    exact techNodup_mk.mpr ⟨by simpa using h1, by simpa using h2, by simpa using h3⟩

theorem techNodup_AddEdges {p : Payload} (target : Payload) (h : techNodupTree p = true) :
    techNodupTree (p.AddEdges target) = true := by
  cases p with
  | mk c cs =>
    rw [AddEdges_eq]
    rcases techNodup_mk.mp h with ⟨h1, h2, h3⟩
    exact techNodup_mk.mpr ⟨h1, h2, by simpa using h3⟩

theorem techNodup_NewPayload (id name : String) (paths : List String) :
    techNodupTree (NewPayload id name paths) = true := by
  simp [NewPayload, techNodup_mk, nodupStr, techNodupForest]

theorem techNodup_implicitComponentOf (rule : Rule) (paths : List String)
    (currentPath freshId : String) :
    techNodupTree (implicitComponentOf rule paths currentPath freshId) = true := by
  unfold implicitComponentOf
  have hcomp0 := techNodup_NewPayload freshId rule.Name paths
  cases hs : ShouldAddPrimaryTech rule with
  | true =>
    simpa using techNodup_modifyReason
      (fun rs => rs ++ ["matched file: " ++ currentPath])
      (techNodup_AddPrimaryTech rule.Tech hcomp0)
  | false =>
    simpa using techNodup_modifyReason
      (fun rs => rs ++ ["matched file: " ++ currentPath])
      (techNodup_AddTech rule.Tech ("matched file: " ++ currentPath) hcomp0)

theorem techNodup_findImplicitComponent {p : Payload} (rule : Rule)
    (currentPath : String) (ae : Bool) (freshId : String)
    (h : techNodupTree p = true) :
    techNodupTree (findImplicitComponent p rule currentPath ae freshId) = true := by
  unfold findImplicitComponent
  cases hsc : ShouldCreateComponent rule with
  | false => simpa using h
  | true =>
    simp only [hsc, Bool.not_true, Bool.false_eq_true, if_false]
    have hadd := techNodup_AddChild
      (techNodup_implicitComponentOf rule p.Path currentPath freshId) h
    cases hae : (ae && rule.RuleType != "hosting" && rule.RuleType != "cloud") with
    | true => simpa using techNodup_AddEdges _ hadd
    | false => simpa using hadd

theorem applyOps_cons (p : Payload) (op : PayloadOp) (ops : List PayloadOp) :
    applyOps p (op :: ops) = applyOps (applyOp p op) ops := rfl

/-- C2, counterexample: the inclusion tech ⊆ techs is not an invariant.
AddPrimaryTech (one of the listed operations, used by the AddChild merge
and by implicit component creation) appends to the Tech array without
touching Techs, so a payload can carry a primary tech absent from its
techs list. -/
theorem C2_addPrimaryTech_breaks_subset :
    "nodejs" ∈ ((NewPayload "id2" "comp" []).AddPrimaryTech "nodejs").Tech ∧
    "nodejs" ∉ ((NewPayload "id2" "comp" []).AddPrimaryTech "nodejs").Techs := by
  constructor <;> decide

/-- C2, amended: after every sequence of AddTech, AddPrimaryTech, AddChild,
Combine and implicit-component-creation operations (grafted payloads being
themselves duplicate-free), every payload of the result tree has
duplicate-free Tech and Techs arrays; the subset inclusion tech ⊆ techs of
the original claim does not survive AddPrimaryTech (see the
counterexample). -/
theorem C2_tech_arrays_nodup (p : Payload) (ops : List PayloadOp)
    (hops : ∀ op ∈ ops, opTechWF op = true) (h : techNodupTree p = true) :
    techNodupTree (applyOps p ops) = true := by
  induction ops generalizing p with
  | nil => exact h
  | cons op ops ih =>
    have hop := hops op (List.mem_cons_self op ops)
    have hops' : ∀ o ∈ ops, opTechWF o = true := fun o ho =>
      hops o (List.mem_cons_of_mem _ ho)
    rw [applyOps_cons]
    refine ih _ hops' ?_
    cases op with
    | addTech t r => exact techNodup_AddTech t r h
    | addPrimaryTech t => exact techNodup_AddPrimaryTech t h
    | addChild s => exact techNodup_AddChild (by simpa [opTechWF] using hop) h
    | combine o => exact techNodup_Combine o h
    | implicit rule cp ae fid => exact techNodup_findImplicitComponent rule cp ae fid h

/-- C2, witness for the amended theorem at a concrete operation sequence. -/
theorem C2_tech_arrays_nodup_witness :
    techNodupTree (applyOps mainPayload opsSample) = true :=
  C2_tech_arrays_nodup mainPayload opsSample (by decide) (by decide)

theorem Edges_Combine (p other : Payload) : (p.Combine other).Edges = p.Edges := by
  cases p
  simp [Payload.Combine, Payload.mergePaths, Payload.mergeLanguages, Payload.mergeTechs,
    Payload.mergeTechField, Payload.mergeDependencies, Payload.mergeLicenses,
    Payload.modifyCore]

theorem edgesRW_AddTech {p : Payload} (t r : String) (h : edgesRWTree p = true) :
    edgesRWTree (p.AddTech t r) = true := by
  cases p with
  | mk c cs =>
    rw [AddTech_eq]
    rcases edgesRW_mk.mp h with ⟨h1, h2⟩
    exact edgesRW_mk.mpr ⟨h1, by simpa using h2⟩

theorem edgesRW_AddPrimaryTech {p : Payload} (t : String) (h : edgesRWTree p = true) :
    edgesRWTree (p.AddPrimaryTech t) = true := by
  cases p with
  | mk c cs =>
    rw [AddPrimaryTech_eq]
    rcases edgesRW_mk.mp h with ⟨h1, h2⟩
    exact edgesRW_mk.mpr ⟨h1, by simpa using h2⟩

theorem edgesRW_Combine {p : Payload} (other : Payload) (h : edgesRWTree p = true) :
    edgesRWTree (p.Combine other) = true := by
  have hed := Edges_Combine p other
  have hch := Childs_Combine p other
  cases p with
  | mk c cs =>
    cases hq : (Payload.mk c cs).Combine other with
    | mk c2 cs2 =>
      rw [hq] at hed hch
      simp only [Edges_mk, Childs_mk] at hed hch
      rcases edgesRW_mk.mp h with ⟨h1, h2⟩
      subst hch
      exact edgesRW_mk.mpr ⟨by rw [show c2.Edges = c.Edges from hed]; exact h1, h2⟩

theorem edgesRW_mergeChildInto {child service : Payload} (h : edgesRWTree child = true) :
    edgesRWTree (mergeChildInto child service) = true := by
  cases child with
  | mk c cs =>
    rw [mergeChildInto_eq]
    rcases edgesRW_mk.mp h with ⟨h1, h2⟩
    exact edgesRW_mk.mpr ⟨h1, by simpa using h2⟩

theorem edgesRWForest_addChildList {service : Payload} {cs : List Payload}
    (hs : edgesRWTree service = true) (h : edgesRWForest cs = true) :
    edgesRWForest (addChildList service cs) = true := by
  induction cs with
  | nil => simp [addChildList, edgesRWForest, hs]
  | cons child rest ih =>
    simp only [edgesRWForest, Bool.and_eq_true] at h
    cases hm : addChildMatch service child with
    | true =>
      simp only [addChildList, hm, if_true]
      simp [edgesRWForest, edgesRW_mergeChildInto h.1, h.2]
    | false =>
      simp only [addChildList, hm, Bool.false_eq_true, if_false]
      simp [edgesRWForest, h.1, ih h.2]

theorem edgesRW_AddChild {p service : Payload} (hs : edgesRWTree service = true)
    (h : edgesRWTree p = true) : edgesRWTree (p.AddChild service) = true := by
  cases p with
  | mk c cs =>
    rcases edgesRW_mk.mp h with ⟨h1, h2⟩
    unfold Payload.AddChild
    refine edgesRW_mk.mpr ⟨by simpa using h1, ?_⟩
    simpa using edgesRWForest_addChildList hs h2

theorem edgesRW_modifyReason {p : Payload} (f : List String → List String)
    (h : edgesRWTree p = true) :
    edgesRWTree (p.modifyCore fun c => { c with Reason := f c.Reason }) = true := by
  cases p with
  | mk c cs =>
    rcases edgesRW_mk.mp h with ⟨h1, h2⟩
    exact edgesRW_mk.mpr ⟨by simpa using h1, by simpa using h2⟩

theorem edgesRW_AddEdges {p : Payload} (target : Payload) (h : edgesRWTree p = true) :
    edgesRWTree (p.AddEdges target) = true := by
  cases p with
  | mk c cs =>
    rw [AddEdges_eq]
    rcases edgesRW_mk.mp h with ⟨h1, h2⟩
    refine edgesRW_mk.mpr ⟨?_, by simpa using h2⟩
    simp only [List.all_append, Bool.and_eq_true]
    exact ⟨h1, by simp⟩

theorem edgesRW_NewPayload (id name : String) (paths : List String) :
    edgesRWTree (NewPayload id name paths) = true := by
  simp [NewPayload, edgesRW_mk, edgesRWForest]

theorem edgesRW_implicitComponentOf (rule : Rule) (paths : List String)
    (currentPath freshId : String) :
    edgesRWTree (implicitComponentOf rule paths currentPath freshId) = true := by
  unfold implicitComponentOf
  have hcomp0 := edgesRW_NewPayload freshId rule.Name paths
  cases hs : ShouldAddPrimaryTech rule with
  | true =>
    simpa using edgesRW_modifyReason
      (fun rs => rs ++ ["matched file: " ++ currentPath])
      (edgesRW_AddPrimaryTech rule.Tech hcomp0)
  | false =>
    simpa using edgesRW_modifyReason
      (fun rs => rs ++ ["matched file: " ++ currentPath])
      (edgesRW_AddTech rule.Tech ("matched file: " ++ currentPath) hcomp0)

theorem edgesRW_findImplicitComponent {p : Payload} (rule : Rule)
    (currentPath : String) (ae : Bool) (freshId : String)
    (h : edgesRWTree p = true) :
    edgesRWTree (findImplicitComponent p rule currentPath ae freshId) = true := by
  unfold findImplicitComponent
  cases hsc : ShouldCreateComponent rule with
  | false => simpa using h
  | true =>
    simp only [hsc, Bool.not_true, Bool.false_eq_true, if_false]
    have hadd := edgesRW_AddChild
      (edgesRW_implicitComponentOf rule p.Path currentPath freshId) h
    cases hae : (ae && rule.RuleType != "hosting" && rule.RuleType != "cloud") with
    | true => simpa using edgesRW_AddEdges _ hadd
    | false => simpa using hadd

/-- C10: every edge ever observed in a payload tree built by the model
operations has Read and Write both true. AddEdges is the only constructor
of edges in the sources and hard-codes both flags to true, and every
operation (including the AddChild merge and implicit component creation
with its edge) preserves the all-edges-read-write invariant. The second
conjunct states the constructor fact directly: any edge of an AddEdges
result is either an old edge or carries both flags true. -/
theorem C10_edges_always_read_write (p : Payload) (ops : List PayloadOp)
    (hops : ∀ op ∈ ops, opEdgesWF op = true) (h : edgesRWTree p = true) :
    edgesRWTree (applyOps p ops) = true ∧
    ∀ q target : Payload, ∀ e ∈ (q.AddEdges target).Edges,
      e ∈ q.Edges ∨ (e.Read = true ∧ e.Write = true) := by
  have main : ∀ (os : List PayloadOp) (q : Payload),
      (∀ op ∈ os, opEdgesWF op = true) → edgesRWTree q = true →
      edgesRWTree (applyOps q os) = true := by
    intro os
    induction os with
    | nil => intro q _ hq; exact hq
    | cons op ops ih =>
      intro q hops hq
      have hop := hops op (List.mem_cons_self op ops)
      have hops' : ∀ o ∈ ops, opEdgesWF o = true := fun o ho =>
        hops o (List.mem_cons_of_mem _ ho)
      rw [applyOps_cons]
      refine ih _ hops' ?_
      cases op with
      | addTech t r => exact edgesRW_AddTech t r hq
      | addPrimaryTech t => exact edgesRW_AddPrimaryTech t hq
      | addChild s => exact edgesRW_AddChild (by simpa [opEdgesWF] using hop) hq
      | combine o => exact edgesRW_Combine o hq
      | implicit rule cp ae fid => exact edgesRW_findImplicitComponent rule cp ae fid hq
  constructor
  · exact main ops p hops h
  · intro q target e he
    rw [AddEdges_eq] at he
    simp only [Edges_mk] at he
    rcases List.mem_append.mp he with h1 | h2
    · exact Or.inl h1
    · right
      have : e = ⟨target.ID, true, true⟩ := List.mem_singleton.mp h2
      rw [this]
      exact ⟨rfl, rfl⟩

/-- C10, witness at a concrete operation sequence. -/
theorem C10_edges_always_read_write_witness :
    edgesRWTree (applyOps mainPayload opsSample) = true :=
  (C10_edges_always_read_write mainPayload opsSample (by decide) (by decide)).1

/-- C3, counterexample: a rule with no is_component override whose type is
present in no type configuration is classified as a component (decision
true), not as a non-component as the claim states: the classifier consults
a hard-coded set of non-component type names and defaults every other type
to component. -/
theorem C3_unlisted_type_creates_component :
    ruleWidget.IsComponent = none ∧ ShouldCreateComponent ruleWidget = true := by
  constructor <;> decide

/-- C3, amended: the classifier uses the explicit is_component override when
set; otherwise it consults only a hard-coded list of fifteen non-component
type names (no type configuration): the decision is false exactly for
types in that list, and true for every other type, including types unknown
to any configuration. -/
theorem C3_classifier_hardcoded_types (rule : Rule) :
    (∀ b, rule.IsComponent = some b → ShouldCreateComponent rule = b) ∧
    (rule.IsComponent = none →
      (ShouldCreateComponent rule = false ↔
        rule.RuleType ∈ ["ci", "language", "runtime", "tool", "framework", "validation",
          "builder", "linter", "test", "orm", "package_manager", "ui", "ui_framework",
          "iac", "iconset"])) := by
  constructor
  · intro b hb
    simp [ShouldCreateComponent, hb]
  · intro hn
    have hmem : IsNotAComponent rule.RuleType = true ↔
        rule.RuleType ∈ ["ci", "language", "runtime", "tool", "framework", "validation",
          "builder", "linter", "test", "orm", "package_manager", "ui", "ui_framework",
          "iac", "iconset"] := List.elem_iff
    rw [show ShouldCreateComponent rule = !IsNotAComponent rule.RuleType by
      simp [ShouldCreateComponent, hn]]
    rw [← hmem]
    cases IsNotAComponent rule.RuleType <;> simp

/-- C3, witness: the override branch at a concrete demoted db rule. -/
theorem C3_classifier_hardcoded_types_witness :
    ShouldCreateComponent ruleDbDemoted = false :=
  (C3_classifier_hardcoded_types ruleDbDemoted).1 false rfl

theorem AddChild_eq (p service : Payload) :
    p.AddChild service = .mk p.core (addChildList service p.Childs) := by
  cases p; rfl

theorem treeIds_mk (c : PayloadCore) (cs : List Payload) :
    treeIds (.mk c cs) = c.ID :: treeIdsList cs := rfl

theorem treeIdsList_append (xs ys : List Payload) :
    treeIdsList (xs ++ ys) = treeIdsList xs ++ treeIdsList ys := by
  induction xs with
  | nil => simp [treeIdsList]
  | cons x xs ih => simp [treeIdsList, ih]

theorem addChildList_no_match {service : Payload} {cs : List Payload}
    (h : ∀ child ∈ cs, addChildMatch service child = false) :
    addChildList service cs = cs ++ [service] := by
  induction cs with
  | nil => rfl
  | cons child rest ih =>
    have hc := h child (List.mem_cons_self child rest)
    simp only [addChildList, hc, Bool.false_eq_true, if_false, List.cons_append]
    rw [ih fun c hm => h c (List.mem_cons_of_mem _ hm)]

/-- C5, counterexample: an edge may target a payload outside the tree. When
an implicit component is created in a directory where a same-named child
with a primary tech already exists, AddChild merges into the existing
child and discards the fresh component, but findImplicitComponent adds the
edge to the fresh component anyway: the edge's target id is in no node of
the tree. -/
theorem C5_merged_implicit_edge_targets_detached_payload :
    "fresh" ∈ (findImplicitComponent parentWithPg ruleDb "/x" true "fresh").Edges.map
      Edge.Target ∧
    "fresh" ∉ treeIds (findImplicitComponent parentWithPg ruleDb "/x" true "fresh") := by
  constructor <;> decide

theorem Edges_AddChild (p s : Payload) : (p.AddChild s).Edges = p.Edges := by
  rw [AddChild_eq]
  cases p
  simp

theorem core_Edges_AddChild (p s : Payload) : (p.AddChild s).core.Edges = p.Edges :=
  Edges_AddChild p s

theorem Childs_AddChild (p s : Payload) : (p.AddChild s).Childs = addChildList s p.Childs := by
  rw [AddChild_eq]
  simp

theorem ID_mem_treeIds (q : Payload) : q.ID ∈ treeIds q := by
  cases q
  simp [treeIds]

theorem Name_implicitComponentOf (rule : Rule) (paths : List String)
    (currentPath freshId : String) :
    (implicitComponentOf rule paths currentPath freshId).Name = rule.Name := by
  unfold implicitComponentOf
  cases hs : ShouldAddPrimaryTech rule <;>
    simp [NewPayload, AddPrimaryTech_eq, AddTech_eq, Payload.modifyCore]

theorem ID_implicitComponentOf (rule : Rule) (paths : List String)
    (currentPath freshId : String) :
    (implicitComponentOf rule paths currentPath freshId).ID = freshId := by
  unfold implicitComponentOf
  cases hs : ShouldAddPrimaryTech rule <;>
    simp [NewPayload, AddPrimaryTech_eq, AddTech_eq, Payload.modifyCore]

/-- C5, amended: the edge added by findImplicitComponent targets the freshly
created component, so it refers to a node of the tree exactly when AddChild
appended that component: when no same-named child exists, every edge of the
result is an old edge of the payload or targets the fresh component's id,
which is then a node of the result tree. (When a same-named child with a
primary tech exists, AddChild merges and the edge targets a detached
payload, as the counterexample shows.) -/
theorem C5_appended_implicit_edge_targets_tree (p : Payload) (rule : Rule)
    (currentPath : String) (ae : Bool) (freshId : String)
    (hnm : ∀ child ∈ p.Childs, child.Name ≠ rule.Name) :
    ∀ e ∈ (findImplicitComponent p rule currentPath ae freshId).Edges,
      e ∈ p.Edges ∨
        (e.Target = freshId ∧
          freshId ∈ treeIds (findImplicitComponent p rule currentPath ae freshId)) := by
  intro e he
  unfold findImplicitComponent at he ⊢
  cases hsc : ShouldCreateComponent rule with
  | false =>
    rw [hsc] at he
    simp at he
    exact Or.inl he
  | true =>
    simp only [hsc, Bool.not_true, Bool.false_eq_true, if_false] at he ⊢
    have hmatch : ∀ child ∈ p.Childs,
        addChildMatch (implicitComponentOf rule p.Path currentPath freshId) child = false := by
      intro child hc
      unfold addChildMatch
      have hne : (child.Name ==
          (implicitComponentOf rule p.Path currentPath freshId).Name) = false := by
        rw [Name_implicitComponentOf]
        exact beq_eq_false_iff_ne.mpr (hnm child hc)
      simp [hne]
    have hchilds :
        (p.AddChild (implicitComponentOf rule p.Path currentPath freshId)).Childs
          = p.Childs ++ [implicitComponentOf rule p.Path currentPath freshId] := by
      rw [Childs_AddChild, addChildList_no_match hmatch]
    cases hae : (ae && rule.RuleType != "hosting" && rule.RuleType != "cloud") with
    | false =>
      rw [hae] at he
      simp only [Bool.false_eq_true, if_false] at he
      rw [Edges_AddChild] at he
      exact Or.inl he
    | true =>
      rw [hae] at he
      simp only [if_true] at he ⊢
      rw [AddEdges_eq] at he
      simp only [Edges_mk] at he
      rw [core_Edges_AddChild] at he
      rcases List.mem_append.mp he with h1 | h2
      · exact Or.inl h1
      · right
        have he2 : e = ⟨(implicitComponentOf rule p.Path currentPath freshId).ID,
            true, true⟩ := List.mem_singleton.mp h2
        have hid := ID_implicitComponentOf rule p.Path currentPath freshId
        constructor
        · rw [he2]
          exact hid
        · rw [AddEdges_eq]
          cases hq : p.AddChild (implicitComponentOf rule p.Path currentPath freshId) with
          | mk c2 cs2 =>
            rw [hq] at hchilds
            simp only [Childs_mk] at hchilds
            subst hchilds
            rw [treeIds_mk]
            refine List.mem_cons_of_mem _ ?_
            rw [show (Payload.mk c2
              (p.Childs ++ [implicitComponentOf rule p.Path currentPath freshId])).Childs
              = p.Childs ++ [implicitComponentOf rule p.Path currentPath freshId]
              from rfl]
            rw [treeIdsList_append]
            refine List.mem_append_right _ ?_
            have := ID_mem_treeIds (implicitComponentOf rule p.Path currentPath freshId)
            rw [hid] at this
            simpa [treeIdsList] using this

/-- C5, witness for the amended theorem: fresh component appended under a
parent with no same-named child, concrete edge checked. -/
theorem C5_appended_implicit_edge_targets_tree_witness :
    (⟨"fresh", true, true⟩ : Edge) ∈ mainPayload.Edges ∨
      ((⟨"fresh", true, true⟩ : Edge).Target = "fresh" ∧
        "fresh" ∈ treeIds (findImplicitComponent mainPayload ruleDb "/x" true "fresh")) :=
  C5_appended_implicit_edge_targets_tree mainPayload ruleDb "/x" true "fresh"
    (by decide) ⟨"fresh", true, true⟩ (by decide)

/-- C4, counterexample: Combine is not idempotent. Merging a virtual payload
that carries one Go language file into a fresh context twice does not leave
the context as after one merge: mergeLanguages adds the file counts again,
so the Go count becomes 2 instead of 1. -/
theorem C4_combine_not_idempotent :
    ((mainPayload.Combine virtualGoPayload).Combine virtualGoPayload).Languages ≠
      (mainPayload.Combine virtualGoPayload).Languages := by
  decide

/-- C4, amended: merging the same virtual payload a second time leaves the
set-like fields of the context unchanged (paths, primary techs, techs,
dependencies and licenses stay equal, not merely set-equal), but the
language file counts are not unchanged: the second Combine adds the other
payload's counts once more, so each language count grows by the other
payload's count for it. -/
theorem C4_combine_second_merge (c p : Payload) (hk : nodupKeys c.Languages) :
    ((c.Combine p).Combine p).Path = (c.Combine p).Path ∧
    ((c.Combine p).Combine p).Tech = (c.Combine p).Tech ∧
    ((c.Combine p).Combine p).Techs = (c.Combine p).Techs ∧
    ((c.Combine p).Combine p).Dependencies = (c.Combine p).Dependencies ∧
    ((c.Combine p).Combine p).Licenses = (c.Combine p).Licenses ∧
    ∀ lang, langCount ((c.Combine p).Combine p).Languages lang
      = langCount (c.Combine p).Languages lang + langCount p.Languages lang := by
  have hPath : ∀ a ∈ p.Path, a ∈ (c.Combine p).Path := by
    intro a ha
    rw [Path_Combine]
    exact mem_dedupAppendBy_right containsString_spec ha
  have hTech : ∀ t ∈ p.Tech, t = "" ∨ t ∈ (c.Combine p).Tech := by
    intro t ht
    by_cases he : t = ""
    · exact Or.inl he
    · exact Or.inr (by rw [Tech_Combine]; exact mem_primaryFold_self ht he)
  have hTechs1 : ∀ a ∈ p.Techs, a ∈ (c.Combine p).Techs := by
    intro a ha
    rw [Techs_Combine]
    exact mem_primaryFold_left _ (mem_dedupAppendBy_right containsString_spec ha)
  have hTechs2 : ∀ t ∈ p.Tech, t = "" ∨ t ∈ (c.Combine p).Techs := by
    intro t ht
    by_cases he : t = ""
    · exact Or.inl he
    · exact Or.inr (by rw [Techs_Combine]; exact mem_primaryFold_self ht he)
  refine ⟨?_, ?_, ?_, ?_, ?_, ?_⟩
  · rw [Path_Combine ((c.Combine p)) p]
    exact dedupAppendBy_eq_self containsString_spec hPath
  · rw [Tech_Combine ((c.Combine p)) p]
    exact primaryFold_eq_self hTech
  · rw [Techs_Combine ((c.Combine p)) p,
      show dedupAppend (c.Combine p).Techs p.Techs = (c.Combine p).Techs from
        dedupAppendBy_eq_self containsString_spec hTechs1]
    exact primaryFold_eq_self hTechs2
  · rw [Dependencies_Combine ((c.Combine p)) p]
    refine dedupAppendBy_eq_self containsDependency_spec ?_
    intro d hd
    rw [Dependencies_Combine]
    exact mem_dedupAppendBy_right containsDependency_spec hd
  · rw [Licenses_Combine ((c.Combine p)) p]
    refine dedupAppendBy_eq_self containsString_spec ?_
    intro a ha
    rw [Licenses_Combine]
    exact mem_dedupAppendBy_right containsString_spec ha
  · intro lang
    rw [Languages_Combine ((c.Combine p)) p]
    have hk1 : nodupKeys (c.Combine p).Languages := by
      rw [Languages_Combine]
      exact nodupKeys_mergeLangs _ hk
    exact langCount_mergeLangs hk1 lang

/-- C4, witness for the amended theorem at a concrete input. -/
theorem C4_combine_second_merge_witness :
    nodupKeys mainPayload.Languages ∧
    ((mainPayload.Combine virtualGoPayload).Combine virtualGoPayload).Path =
      (mainPayload.Combine virtualGoPayload).Path :=
  ⟨by unfold nodupKeys; decide,
   (C4_combine_second_merge mainPayload virtualGoPayload (by unfold nodupKeys; decide)).1⟩

theorem refVersion_toList (pn : String) :
    ("$\x7b" ++ pn ++ "\x7d").toList = '$' :: '{' :: (pn.toList ++ ['}']) := rfl

theorem refVersion_ne_empty (pn : String) : ("$\x7b" ++ pn ++ "\x7d") ≠ "" := by
  intro h
  have h2 : ('$' :: '{' :: (pn.toList ++ ['}'])) = ([] : List Char) := by
    rw [← refVersion_toList pn, h]
    rfl
  cases h2

theorem resolveVersion_empty (properties : List (String × String)) :
    resolveVersion "" properties = "latest" := by
  simp [resolveVersion]

theorem resolveVersion_ref (pn : String) (properties : List (String × String)) :
    resolveVersion ("$\x7b" ++ pn ++ "\x7d") properties =
      match properties.find? (fun e => e.1 == pn) with
      | some e => e.2
      | none => "$\x7b" ++ pn ++ "\x7d" := by
  unfold resolveVersion
  have hne : (("$\x7b" ++ pn ++ "\x7d") == "") = false :=
    beq_eq_false_iff_ne.mpr (refVersion_ne_empty pn)
  have hsw : strStartsWith ("$\x7b" ++ pn ++ "\x7d") "$\x7b" = true := by
    simp only [strStartsWith, refVersion_toList, List.isPrefixOf_iff_prefix]
    exact ⟨pn.toList ++ ['}'], rfl⟩
  have hew : strEndsWith ("$\x7b" ++ pn ++ "\x7d") "\x7d" = true := by
    simp only [strEndsWith, refVersion_toList, List.isSuffixOf_iff_suffix]
    exact ⟨'$' :: '{' :: pn.toList, by simp⟩
  have hpn : (⟨(("$\x7b" ++ pn ++ "\x7d").toList.drop 2).dropLast⟩ : String) = pn := by
    rw [refVersion_toList]
    simp only [List.drop_succ_cons, List.drop_zero, List.dropLast_concat]
    rfl
  simp only [hne, Bool.false_eq_true, if_false, hsw, hew, Bool.and_self, if_true, hpn]

theorem resolveVersion_literal (version : String) (properties : List (String × String))
    (hne : version ≠ "")
    (hcond : (strStartsWith version "$\x7b" && strEndsWith version "\x7d") = false) :
    resolveVersion version properties = version := by
  unfold resolveVersion
  have h1 : (version == "") = false := beq_eq_false_iff_ne.mpr hne
  simp [h1, hcond]

theorem pomFold_mono {properties : List (String × String)} {deps : List MavenDependency}
    {acc : List Dependency} {x : Dependency} (h : x ∈ acc) :
    x ∈ deps.foldl (fun acc dep =>
      if dep.GroupId != "" && dep.ArtifactId != "" then
        acc ++ [⟨"maven", dep.GroupId ++ ":" ++ dep.ArtifactId,
                resolveVersion dep.Version properties⟩]
      else acc) acc := by
  induction deps generalizing acc with
  | nil => exact h
  | cons d ds ih =>
    simp only [List.foldl_cons]
    cases hd : (d.GroupId != "" && d.ArtifactId != "") with
    | true => simpa using ih (List.mem_append_left _ h)
    | false => simpa using ih h

theorem mem_pomFold {properties : List (String × String)} {dep : MavenDependency}
    (hg : dep.GroupId ≠ "") (ha : dep.ArtifactId ≠ "") :
    ∀ (deps : List MavenDependency), dep ∈ deps → ∀ acc : List Dependency,
      (⟨"maven", dep.GroupId ++ ":" ++ dep.ArtifactId,
        resolveVersion dep.Version properties⟩ : Dependency) ∈
        deps.foldl (fun acc dep =>
          if dep.GroupId != "" && dep.ArtifactId != "" then
            acc ++ [⟨"maven", dep.GroupId ++ ":" ++ dep.ArtifactId,
                    resolveVersion dep.Version properties⟩]
          else acc) acc := by
  intro deps
  induction deps with
  | nil => intro h _; cases h
  | cons d ds ih =>
    intro hmem acc
    simp only [List.foldl_cons]
    rcases List.mem_cons.mp hmem with rfl | hmem'
    · have hd : (dep.GroupId != "" && dep.ArtifactId != "") = true := by
        simp only [Bool.and_eq_true, bne_iff_ne]
        exact ⟨hg, ha⟩
      rw [if_pos hd]
      exact pomFold_mono (List.mem_append_right _ (List.mem_singleton.mpr rfl))
    · cases hd : (d.GroupId != "" && d.ArtifactId != "") with
      | true => simpa using ih hmem' _
      | false => simpa using ih hmem' _

theorem mem_ParsePomXML {properties : List (String × String)}
    {deps : List MavenDependency} {dep : MavenDependency} (hmem : dep ∈ deps)
    (hg : dep.GroupId ≠ "") (ha : dep.ArtifactId ≠ "") :
    (⟨"maven", dep.GroupId ++ ":" ++ dep.ArtifactId,
      resolveVersion dep.Version properties⟩ : Dependency) ∈ ParsePomXML properties deps := by
  unfold ParsePomXML
  exact mem_pomFold hg ha deps hmem []

/-- C8: Maven POM dependency extraction. Every unmarshalled dependency with
non-empty groupId and artifactId yields the maven tuple groupId:artifactId
whose version is: the property value after a single one-level lookup when
the version is a dollar-brace reference defined in the properties section;
the literal reference text when the property is undefined; the literal
version text when it is not a reference; and latest when the version
element is empty or absent. -/
theorem C8_pom_dependency_tuples (properties : List (String × String))
    (deps : List MavenDependency) (dep : MavenDependency)
    (hmem : dep ∈ deps) (hg : dep.GroupId ≠ "") (ha : dep.ArtifactId ≠ "") :
    (⟨"maven", dep.GroupId ++ ":" ++ dep.ArtifactId,
      resolveVersion dep.Version properties⟩ : Dependency) ∈ ParsePomXML properties deps ∧
    (dep.Version = "" → resolveVersion dep.Version properties = "latest") ∧
    (∀ pn v, dep.Version = "$\x7b" ++ pn ++ "\x7d" →
      lookupProp properties pn = some v →
      resolveVersion dep.Version properties = v) ∧
    (∀ pn, dep.Version = "$\x7b" ++ pn ++ "\x7d" →
      lookupProp properties pn = none →
      resolveVersion dep.Version properties = dep.Version) ∧
    (dep.Version ≠ "" →
      (strStartsWith dep.Version "$\x7b" && strEndsWith dep.Version "\x7d") = false →
      resolveVersion dep.Version properties = dep.Version) := by
  refine ⟨mem_ParsePomXML hmem hg ha, ?_, ?_, ?_, ?_⟩
  · intro hv
    rw [hv]
    exact resolveVersion_empty properties
  · intro pn v hv hl
    rw [hv, resolveVersion_ref]
    unfold lookupProp at hl
    cases hf : properties.find? (fun e => e.1 == pn) with
    | none => rw [hf] at hl; cases hl
    | some e =>
      rw [hf] at hl
      simp only [Option.map_some'] at hl
      have hev := Option.some.inj hl
      simp [hf, hev]
  · intro pn hv hl
    rw [hv, resolveVersion_ref]
    unfold lookupProp at hl
    cases hf : properties.find? (fun e => e.1 == pn) with
    | none => simp [hf]
    | some e => rw [hf] at hl; cases hl
  · intro hne hcond
    exact resolveVersion_literal dep.Version properties hne hcond

/-- C8, witness at a concrete POM: properties define spring.version; four
dependencies cover the resolved, undefined-reference, literal and empty
version cases. -/
theorem C8_pom_dependency_tuples_witness :
    (⟨"maven", "org.spring" ++ ":" ++ "core",
      resolveVersion "$\x7bspring.version\x7d" [("spring.version", "5.3.1")]⟩ : Dependency) ∈
      ParsePomXML [("spring.version", "5.3.1")]
        [⟨"org.spring", "core", "$\x7bspring.version\x7d"⟩] ∧
    resolveVersion "$\x7bspring.version\x7d" [("spring.version", "5.3.1")] = "5.3.1" :=
  ⟨(C8_pom_dependency_tuples [("spring.version", "5.3.1")]
      [⟨"org.spring", "core", "$\x7bspring.version\x7d"⟩]
      ⟨"org.spring", "core", "$\x7bspring.version\x7d"⟩
      (by decide) (by decide) (by decide)).1,
   by decide⟩

/-- C7, code bug: for a compose file whose service db uses the image
postgres colon 15, the produced child's dependency tuple is the name before
the first colon with an EMPTY version, not the tag 15 that the claim (and
the function's own intent of splitting name and version) expects: the
regexp-based Split consumes the whole tag as part of the separator. The
no-colon fallback to latest works as claimed. -/
theorem C7_compose_postgres_version_dropped :
    parseImage "postgres:15" = ("postgres", "") ∧
    parseImage "postgres" = ("postgres", "latest") ∧
    ((detectDockerCompose (fun _ => "x") composeDepMatch composeContent
        "/docker-compose.yml").map fun p =>
          p.Childs.map fun ch => (ch.Name, ch.Tech, ch.Dependencies)) =
      some [("db", ["postgresql"], [⟨"docker", "postgres", ""⟩])] := by
  refine ⟨by decide, by decide, ?_⟩
  decide

theorem Techs_AddChild (p s : Payload) : (p.AddChild s).Techs = p.Techs := by
  rw [AddChild_eq]; rfl

theorem Tech_AddChild (p s : Payload) : (p.AddChild s).Tech = p.Tech := by
  rw [AddChild_eq]; rfl

theorem Techs_AddEdges (p t : Payload) : (p.AddEdges t).Techs = p.Techs := by
  rw [AddEdges_eq]; rfl

theorem Tech_AddEdges (p t : Payload) : (p.AddEdges t).Tech = p.Tech := by
  rw [AddEdges_eq]; rfl

theorem Techs_findImplicitComponent (p : Payload) (rule : Rule) (cp : String)
    (ae : Bool) (freshId : String) :
    (findImplicitComponent p rule cp ae freshId).Techs = p.Techs := by
  unfold findImplicitComponent
  cases hsc : ShouldCreateComponent rule with
  | false => simp
  | true =>
    simp only [hsc, Bool.not_true, Bool.false_eq_true, if_false]
    cases hae : (ae && rule.RuleType != "hosting" && rule.RuleType != "cloud") with
    | true => simp [Techs_AddEdges, Techs_AddChild]
    | false => simp [Techs_AddChild]

theorem Tech_findImplicitComponent (p : Payload) (rule : Rule) (cp : String)
    (ae : Bool) (freshId : String) :
    (findImplicitComponent p rule cp ae freshId).Tech = p.Tech := by
  unfold findImplicitComponent
  cases hsc : ShouldCreateComponent rule with
  | false => simp
  | true =>
    simp only [hsc, Bool.not_true, Bool.false_eq_true, if_false]
    cases hae : (ae && rule.RuleType != "hosting" && rule.RuleType != "cloud") with
    | true => simp [Tech_AddEdges, Tech_AddChild]
    | false => simp [Tech_AddChild]

theorem Techs_findImplicitComponentByTechR (env : ScanEnv) (p : Payload)
    (tech cp : String) (ae : Bool) (pos : Nat) :
    (findImplicitComponentByTechR env p tech cp ae pos).1.Techs = p.Techs := by
  unfold findImplicitComponentByTechR
  cases env.rules.find? (fun r => r.Tech == tech) with
  | none => rfl
  | some rule => exact Techs_findImplicitComponent p rule cp ae _

theorem Tech_findImplicitComponentByTechR (env : ScanEnv) (p : Payload)
    (tech cp : String) (ae : Bool) (pos : Nat) :
    (findImplicitComponentByTechR env p tech cp ae pos).1.Tech = p.Tech := by
  unfold findImplicitComponentByTechR
  cases env.rules.find? (fun r => r.Tech == tech) with
  | none => rfl
  | some rule => exact Tech_findImplicitComponent p rule cp ae _

theorem mem_Techs_AddTech_self (p : Payload) (t r : String) :
    t ∈ (p.AddTech t r).Techs := by
  rw [AddTech_eq]
  simp only [Techs_mk]
  cases hc : containsString p.core.Techs t with
  | true =>
    simp only [hc, if_true]
    exact containsString_iff.mp hc
  | false =>
    simp only [hc, Bool.false_eq_true, if_false]
    exact List.mem_append_right _ (List.mem_singleton.mpr rfl)

theorem mem_Techs_AddTech_mono {p : Payload} {x : String} (t r : String)
    (h : x ∈ p.Techs) : x ∈ (p.AddTech t r).Techs := by
  rw [AddTech_eq]
  simp only [Techs_mk]
  cases hc : containsString p.core.Techs t with
  | true => simpa using h
  | false =>
    simp only [hc, Bool.false_eq_true, if_false]
    exact List.mem_append_left _ h

theorem mem_Techs_addTechFold_mono {p : Payload} {x : String} (t : String)
    (rs : List String) (h : x ∈ p.Techs) :
    x ∈ (rs.foldl (fun c r => c.AddTech t r) p).Techs := by
  induction rs generalizing p with
  | nil => exact h
  | cons r rs ih => exact ih (mem_Techs_AddTech_mono t r h)

theorem mem_Techs_addTechFold_self {p : Payload} {t : String} {rs : List String}
    (h : rs ≠ []) : t ∈ (rs.foldl (fun c r => c.AddTech t r) p).Techs := by
  cases rs with
  | nil => cases h rfl
  | cons r rs =>
    simp only [List.foldl_cons]
    exact mem_Techs_addTechFold_mono t rs (mem_Techs_AddTech_self p t r)

theorem mcFold_any_mono {rmatch : String → String → Bool} {content tech : String}
    {init : List (String × List String)} (ms : List ContentMatcher)
    (h : init.any (fun e => e.1 == tech) = true) :
    (ms.foldl (mcFold rmatch content) init).any (fun e => e.1 == tech) = true := by
  induction ms generalizing init with
  | nil => exact h
  | cons m ms ih =>
    simp only [List.foldl_cons]
    unfold mcFold
    cases h1 : init.any (fun r => r.1 == m.Tech) with
    | true => simpa using ih h
    | false =>
      cases h2 : rmatch m.Pattern content with
      | true =>
        simp only [h1, Bool.false_eq_true, if_false, h2, if_true]
        exact ih (by simp [List.any_append, h])
      | false => simpa [h1, h2] using ih h

theorem mcFold_exists {rmatch : String → String → Bool} {content tech : String}
    {init : List (String × List String)} {ms : List ContentMatcher}
    (h : ∃ m ∈ ms, m.Tech = tech ∧ rmatch m.Pattern content = true) :
    (ms.foldl (mcFold rmatch content) init).any (fun e => e.1 == tech) = true := by
  induction ms generalizing init with
  | nil => rcases h with ⟨m, hm, _⟩; cases hm
  | cons m ms ih =>
    simp only [List.foldl_cons]
    rcases h with ⟨w, hw, hwt, hwm⟩
    rcases List.mem_cons.mp hw with rfl | hw'
    · subst hwt
      unfold mcFold
      cases h1 : init.any (fun r => r.1 == w.Tech) with
      | true =>
        simp only [h1, if_true]
        exact mcFold_any_mono ms h1
      | false =>
        simp only [h1, Bool.false_eq_true, if_false, hwm, if_true]
        exact mcFold_any_mono ms (by simp [List.any_append])
    · exact ih ⟨w, hw', hwt, hwm⟩

theorem mcFold_absent {rmatch : String → String → Bool} {content tech : String}
    {init : List (String × List String)} {ms : List ContentMatcher}
    (hNo : ∀ m ∈ ms, m.Tech = tech → rmatch m.Pattern content = false)
    (h : init.any (fun e => e.1 == tech) = false) :
    (ms.foldl (mcFold rmatch content) init).any (fun e => e.1 == tech) = false := by
  induction ms generalizing init with
  | nil => exact h
  | cons m ms ih =>
    simp only [List.foldl_cons]
    unfold mcFold
    have hNo' : ∀ x ∈ ms, x.Tech = tech → rmatch x.Pattern content = false :=
      fun x hx => hNo x (List.mem_cons_of_mem _ hx)
    cases h1 : init.any (fun r => r.1 == m.Tech) with
    | true => simpa using ih hNo' h
    | false =>
      cases h2 : rmatch m.Pattern content with
      | true =>
        have hmt : m.Tech ≠ tech := by
          intro he
          rw [hNo m (List.mem_cons_self m ms) he] at h2
          cases h2
        simp only [h1, Bool.false_eq_true, if_false, h2, if_true]
        refine ih hNo' ?_
        simp [List.any_append, h, hmt]
      | false => simpa [h1, h2] using ih hNo' h

theorem mcFold_shape {rmatch : String → String → Bool} {content : String}
    {init : List (String × List String)} {ms : List ContentMatcher}
    {x : String × List String} (hx : x ∈ ms.foldl (mcFold rmatch content) init) :
    x ∈ init ∨ ∃ m ∈ ms, x = (m.Tech, ["content matched: " ++ m.Pattern]) := by
  induction ms generalizing init with
  | nil => exact Or.inl hx
  | cons m ms ih =>
    simp only [List.foldl_cons] at hx
    rcases ih hx with hin | ⟨w, hw, hxe⟩
    · unfold mcFold at hin
      by_cases h1 : init.any (fun r => r.1 == m.Tech) = true
      · rw [if_pos h1] at hin
        exact Or.inl hin
      · rw [if_neg h1] at hin
        by_cases h2 : rmatch m.Pattern content = true
        · rw [if_pos h2] at hin
          rcases List.mem_append.mp hin with h3 | h3
          · exact Or.inl h3
          · exact Or.inr ⟨m, List.mem_cons_self m ms, List.mem_singleton.mp h3⟩
        · rw [if_neg h2] at hin
          exact Or.inl hin
    · exact Or.inr ⟨w, List.mem_cons_of_mem _ hw, hxe⟩

theorem MatchContent_absent {env : ScanEnv} {ext content tech : String}
    (hNo : ∀ e, env.registry.find? (fun en => en.1 == ext) = some e →
      ∀ m ∈ e.2, m.Tech = tech → env.rmatch m.Pattern content = false) :
    ∀ x ∈ MatchContent env.rmatch env.registry ext content, x.1 ≠ tech := by
  intro x hx
  unfold MatchContent at hx
  cases hf : env.registry.find? (fun en => en.1 == ext) with
  | none => rw [hf] at hx; cases hx
  | some e =>
    rw [hf] at hx
    intro hxt
    have hany : (e.2.foldl (mcFold env.rmatch content) []).any
        (fun r => r.1 == tech) = true :=
      List.any_eq_true.mpr ⟨x, hx, by simp [hxt]⟩
    rw [mcFold_absent (hNo e hf) (by simp)] at hany
    cases hany

theorem MatchContent_exists {env : ScanEnv} {ext content tech : String}
    {e : String × List ContentMatcher}
    (hf : env.registry.find? (fun en => en.1 == ext) = some e)
    (hm : ∃ m ∈ e.2, m.Tech = tech ∧ env.rmatch m.Pattern content = true) :
    ∃ x ∈ MatchContent env.rmatch env.registry ext content, x.1 = tech ∧ x.2 ≠ [] := by
  unfold MatchContent
  rw [hf]
  have hany : (e.2.foldl (mcFold env.rmatch content) []).any
      (fun r => r.1 == tech) = true := mcFold_exists hm
  rcases List.any_eq_true.mp hany with ⟨x, hx, hxt⟩
  refine ⟨x, hx, by simpa using hxt, ?_⟩
  rcases mcFold_shape hx with h | ⟨w, _, hxe⟩
  · cases h
  · rw [hxe]
    simp

theorem Techs_removeTechFromPayload (p : Payload) (t : String) :
    (removeTechFromPayload p t).Techs = p.Techs.filter (fun x => x != t) := rfl

theorem Tech_removeTechFromPayload (p : Payload) (t : String) :
    (removeTechFromPayload p t).Tech = p.Tech.filter (fun x => x != t) := rfl

theorem not_mem_Techs_removeTech_self (p : Payload) (t : String) :
    t ∉ (removeTechFromPayload p t).Techs := by
  rw [Techs_removeTechFromPayload]
  intro h
  have := (List.mem_filter.mp h).2
  simp at this

theorem not_mem_Tech_removeTech_self (p : Payload) (t : String) :
    t ∉ (removeTechFromPayload p t).Tech := by
  rw [Tech_removeTechFromPayload]
  intro h
  have := (List.mem_filter.mp h).2
  simp at this

theorem contentGateStep_pres_absent {validated : List String}
    {st : Payload × List String} {g tech : String}
    (h1 : tech ∉ st.1.Techs) (h2 : tech ∉ st.1.Tech) :
    tech ∉ (contentGateStep validated st g).1.Techs ∧
    tech ∉ (contentGateStep validated st g).1.Tech := by
  unfold contentGateStep
  cases hc : (st.2.contains g && !validated.contains g) with
  | false => exact ⟨h1, h2⟩
  | true =>
    simp only [if_true]
    constructor
    · rw [Techs_removeTechFromPayload]
      intro h
      exact h1 (List.mem_filter.mp h).1
    · rw [Tech_removeTechFromPayload]
      intro h
      exact h2 (List.mem_filter.mp h).1

theorem gateFold_pres_absent {validated : List String}
    {st : Payload × List String} {tech : String} (gs : List String)
    (h1 : tech ∉ st.1.Techs) (h2 : tech ∉ st.1.Tech) :
    tech ∉ (gs.foldl (contentGateStep validated) st).1.Techs ∧
    tech ∉ (gs.foldl (contentGateStep validated) st).1.Tech := by
  induction gs generalizing st with
  | nil => exact ⟨h1, h2⟩
  | cons g gs ih =>
    simp only [List.foldl_cons]
    have : tech ∉ (contentGateStep validated st g).1.Techs ∧
        tech ∉ (contentGateStep validated st g).1.Tech :=
      contentGateStep_pres_absent h1 h2
    exact ih this.1 this.2

theorem gateFold_removes {validated : List String} {tech : String}
    (gs : List String) (st : Payload × List String)
    (hg : tech ∈ gs) (hm : tech ∈ st.2) (hv : validated.contains tech = false) :
    tech ∉ (gs.foldl (contentGateStep validated) st).1.Techs ∧
    tech ∉ (gs.foldl (contentGateStep validated) st).1.Tech := by
  induction gs generalizing st with
  | nil => cases hg
  | cons g gs ih =>
    simp only [List.foldl_cons]
    by_cases hge : g = tech
    · subst hge
      unfold contentGateStep
      have hc : (st.2.contains g && !validated.contains g) = true := by
        have h1 : st.2.contains g = true := List.elem_iff.mpr hm
        rw [h1, hv]
        rfl
      simp only [hc, if_true]
      exact gateFold_pres_absent gs (not_mem_Techs_removeTech_self st.1 g)
        (not_mem_Tech_removeTech_self st.1 g)
    · have hg' : tech ∈ gs := by
        rcases List.mem_cons.mp hg with h | h
        · cases hge h.symm
        · exact h
      unfold contentGateStep
      cases hc : (st.2.contains g && !validated.contains g) with
      | false => exact ih _ hg' hm
      | true =>
        simp only [hc, if_true]
        refine ih _ hg' ?_
        exact (List.mem_erase_of_ne (fun h => hge h.symm)).mpr hm

theorem contentGateStep_pres_present {validated : List String}
    {st : Payload × List String} {g tech : String}
    (hv : validated.contains tech = true) (h1 : tech ∈ st.1.Techs) :
    tech ∈ (contentGateStep validated st g).1.Techs := by
  unfold contentGateStep
  cases hc : (st.2.contains g && !validated.contains g) with
  | false => exact h1
  | true =>
    have hne : tech ≠ g := by
      intro he
      subst he
      rw [hv] at hc
      simp at hc
    simp only [if_true]
    rw [Techs_removeTechFromPayload]
    exact List.mem_filter.mpr ⟨h1, by simpa using hne⟩

theorem gateFold_pres_present {validated : List String} {tech : String}
    (gs : List String) (st : Payload × List String)
    (hv : validated.contains tech = true) (h1 : tech ∈ st.1.Techs) :
    tech ∈ (gs.foldl (contentGateStep validated) st).1.Techs := by
  induction gs generalizing st with
  | nil => exact h1
  | cons g gs ih =>
    simp only [List.foldl_cons]
    exact ih _ (contentGateStep_pres_present hv h1)

theorem mem_getTechsWithContentRules_aux {tech : String} (rules : List Rule)
    (acc : List String) (h : tech ∈ acc) :
    tech ∈ rules.foldl (fun acc r =>
      if !r.Content.isEmpty && !(acc.contains r.Tech) then acc ++ [r.Tech] else acc)
      acc := by
  induction rules generalizing acc with
  | nil => exact h
  | cons r rules ih =>
    simp only [List.foldl_cons]
    cases hc : (!r.Content.isEmpty && !(acc.contains r.Tech)) with
    | false => simpa using ih _ h
    | true =>
      simp only [hc, if_true]
      exact ih _ (List.mem_append_left _ h)

theorem getTechs_fold_mem {r : Rule} (rules : List Rule)
    (acc : List String) (hr : r ∈ rules) (hc : r.Content ≠ []) :
    r.Tech ∈ rules.foldl (fun acc r =>
      if !r.Content.isEmpty && !(acc.contains r.Tech) then acc ++ [r.Tech] else acc)
      acc := by
  induction rules generalizing acc with
  | nil => cases hr
  | cons q rules ih =>
    simp only [List.foldl_cons]
    rcases List.mem_cons.mp hr with rfl | hr'
    · cases hcc : (!r.Content.isEmpty && !(acc.contains r.Tech)) with
      | true =>
        simp only [hcc, if_true]
        exact mem_getTechsWithContentRules_aux rules _
          (List.mem_append_right _ (List.mem_singleton.mpr rfl))
      | false =>
        have hne : (r.Content.isEmpty : Bool) = false := by
          cases hemp : r.Content with
          | nil => exact absurd hemp hc
          | cons a l => rfl
        have hmem : acc.contains r.Tech = true := by
          cases hq : acc.contains r.Tech with
          | true => rfl
          | false => rw [hne, hq] at hcc; simp at hcc
        simp only [hcc, Bool.false_eq_true, if_false]
        exact mem_getTechsWithContentRules_aux rules _ (List.elem_iff.mp hmem)
    · exact ih _ hr'

theorem mem_getTechsWithContentRules {rules : List Rule} {r : Rule}
    (hr : r ∈ rules) (hc : r.Content ≠ []) :
    r.Tech ∈ getTechsWithContentRules rules :=
  getTechs_fold_mem rules [] hr hc

theorem contentMatchStep_matched_mono {env : ScanEnv} {currentPath : String}
    {st : ContentScanState} {m : String × List String} {tech : String}
    (h : tech ∈ st.matched) :
    tech ∈ (contentMatchStep env currentPath st m).matched := by
  unfold contentMatchStep
  cases hc : st.matched.contains m.1 with
  | true => simpa using h
  | false =>
    simp only [hc, Bool.false_eq_true, if_false]
    exact List.mem_append_left _ h

theorem contentMatchStep_validated_mono {env : ScanEnv} {currentPath : String}
    {st : ContentScanState} {m : String × List String} {tech : String}
    (h : tech ∈ st.validated) :
    tech ∈ (contentMatchStep env currentPath st m).validated := by
  unfold contentMatchStep
  cases hc : st.matched.contains m.1 with
  | true =>
    simp only [hc, if_true]
    cases hv : st.validated.contains m.1 with
    | true => simpa [hv] using h
    | false => simp only [hv, Bool.false_eq_true, if_false]; exact List.mem_append_left _ h
  | false =>
    simp only [hc, Bool.false_eq_true, if_false]
    cases hv : st.validated.contains m.1 with
    | true => simpa [hv] using h
    | false => simp only [hv, Bool.false_eq_true, if_false]; exact List.mem_append_left _ h

theorem contentMatchStep_validated_absent {env : ScanEnv} {currentPath : String}
    {st : ContentScanState} {m : String × List String} {tech : String}
    (hne : m.1 ≠ tech) (h : tech ∉ st.validated) :
    tech ∉ (contentMatchStep env currentPath st m).validated := by
  unfold contentMatchStep
  cases hc : st.matched.contains m.1 with
  | true =>
    simp only [hc, if_true]
    cases hv : st.validated.contains m.1 with
    | true => simpa [hv] using h
    | false =>
      simp only [hv, Bool.false_eq_true, if_false]
      intro hm
      rcases List.mem_append.mp hm with h1 | h1
      · exact h h1
      · exact hne (List.mem_singleton.mp h1).symm
  | false =>
    simp only [hc, Bool.false_eq_true, if_false]
    cases hv : st.validated.contains m.1 with
    | true => simpa [hv] using h
    | false =>
      simp only [hv, Bool.false_eq_true, if_false]
      intro hm
      rcases List.mem_append.mp hm with h1 | h1
      · exact h h1
      · exact hne (List.mem_singleton.mp h1).symm

theorem contentMatchStep_Techs_mono {env : ScanEnv} {currentPath : String}
    {st : ContentScanState} {m : String × List String} {tech : String}
    (h : tech ∈ st.ctx.Techs) :
    tech ∈ (contentMatchStep env currentPath st m).ctx.Techs := by
  unfold contentMatchStep
  have hctx : tech ∈ (m.2.foldl (fun c r => c.AddTech m.1 r) st.ctx).Techs :=
    mem_Techs_addTechFold_mono m.1 m.2 h
  cases hc : st.matched.contains m.1 with
  | true => simpa using hctx
  | false =>
    simp only [hc, Bool.false_eq_true, if_false]
    rw [Techs_findImplicitComponentByTechR]
    exact hctx

theorem contentMatchStep_self {env : ScanEnv} {currentPath : String}
    {st : ContentScanState} {m : String × List String}
    (hm : m.2 ≠ []) :
    m.1 ∈ (contentMatchStep env currentPath st m).validated ∧
    m.1 ∈ (contentMatchStep env currentPath st m).ctx.Techs := by
  unfold contentMatchStep
  have hctx : m.1 ∈ (m.2.foldl (fun c r => c.AddTech m.1 r) st.ctx).Techs :=
    mem_Techs_addTechFold_self hm
  have hval : m.1 ∈ (if st.validated.contains m.1 then st.validated
      else st.validated ++ [m.1]) := by
    cases hv : st.validated.contains m.1 with
    | true => simpa [hv] using List.elem_iff.mp hv
    | false =>
      simp only [hv, Bool.false_eq_true, if_false]
      exact List.mem_append_right _ (List.mem_singleton.mpr rfl)
  cases hc : st.matched.contains m.1 with
  | true =>
    simp only [hc, if_true]
    exact ⟨hval, hctx⟩
  | false =>
    simp only [hc, Bool.false_eq_true, if_false]
    refine ⟨hval, ?_⟩
    rw [Techs_findImplicitComponentByTechR]
    exact hctx

theorem matchFold_matched_mono {env : ScanEnv} {currentPath : String}
    {tech : String} (ms : List (String × List String)) (st : ContentScanState)
    (h : tech ∈ st.matched) :
    tech ∈ (ms.foldl (contentMatchStep env currentPath) st).matched := by
  induction ms generalizing st with
  | nil => exact h
  | cons m ms ih => exact ih _ (contentMatchStep_matched_mono h)

theorem matchFold_validated_mono {env : ScanEnv} {currentPath : String}
    {tech : String} (ms : List (String × List String)) (st : ContentScanState)
    (h : tech ∈ st.validated) :
    tech ∈ (ms.foldl (contentMatchStep env currentPath) st).validated := by
  induction ms generalizing st with
  | nil => exact h
  | cons m ms ih => exact ih _ (contentMatchStep_validated_mono h)

theorem matchFold_validated_absent {env : ScanEnv} {currentPath : String}
    {tech : String} (ms : List (String × List String)) (st : ContentScanState)
    (hne : ∀ x ∈ ms, x.1 ≠ tech) (h : tech ∉ st.validated) :
    tech ∉ (ms.foldl (contentMatchStep env currentPath) st).validated := by
  induction ms generalizing st with
  | nil => exact h
  | cons m ms ih =>
    exact ih _ (fun x hx => hne x (List.mem_cons_of_mem _ hx))
      (contentMatchStep_validated_absent (hne m (List.mem_cons_self m ms)) h)

theorem matchFold_Techs_mono {env : ScanEnv} {currentPath : String}
    {tech : String} (ms : List (String × List String)) (st : ContentScanState)
    (h : tech ∈ st.ctx.Techs) :
    tech ∈ (ms.foldl (contentMatchStep env currentPath) st).ctx.Techs := by
  induction ms generalizing st with
  | nil => exact h
  | cons m ms ih => exact ih _ (contentMatchStep_Techs_mono h)

theorem matchFold_sat {env : ScanEnv} {currentPath : String} {tech : String}
    (ms : List (String × List String)) (st : ContentScanState)
    (hs : ∃ x ∈ ms, x.1 = tech ∧ x.2 ≠ []) :
    tech ∈ (ms.foldl (contentMatchStep env currentPath) st).validated ∧
    tech ∈ (ms.foldl (contentMatchStep env currentPath) st).ctx.Techs := by
  induction ms generalizing st with
  | nil => rcases hs with ⟨x, hx, _⟩; cases hx
  | cons m ms ih =>
    simp only [List.foldl_cons]
    rcases hs with ⟨x, hx, hxt, hxe⟩
    rcases List.mem_cons.mp hx with rfl | hx'
    · rw [← hxt]
      have hcs : x.1 ∈ (contentMatchStep env currentPath st x).validated ∧
          x.1 ∈ (contentMatchStep env currentPath st x).ctx.Techs :=
        contentMatchStep_self hxe
      exact ⟨matchFold_validated_mono ms _ hcs.1, matchFold_Techs_mono ms _ hcs.2⟩
    · exact ih _ ⟨x, hx', hxt, hxe⟩

theorem detectByContent_fst (env : ScanEnv) (files : List File)
    (currentPath : String) (ctx : Payload) (matched : List String) (pos : Nat) :
    (detectByContent env files currentPath ctx matched pos).1 =
    ((getTechsWithContentRules env.rules).foldl
      (contentGateStep (files.foldl (contentFileStep env currentPath)
        ⟨ctx, matched, [], pos⟩).validated)
      ((files.foldl (contentFileStep env currentPath) ⟨ctx, matched, [], pos⟩).ctx,
       (files.foldl (contentFileStep env currentPath) ⟨ctx, matched, [], pos⟩).matched)).1 :=
  rfl

theorem contentFileStep_matched_mono {env : ScanEnv} {currentPath : String}
    {st : ContentScanState} {file : File} {tech : String}
    (h : tech ∈ st.matched) :
    tech ∈ (contentFileStep env currentPath st file).matched := by
  unfold contentFileStep
  cases h1 : (file.FileType != "file") with
  | true => simpa using h
  | false =>
    cases h2 : (fileExt file.Name == "") with
    | true => simpa using h
    | false =>
      cases h3 : (!HasContentMatchers env.registry (fileExt file.Name)) with
      | true => simpa using h
      | false =>
        cases h4 : file.Content with
        | none => simpa using h
        | some content => simpa using matchFold_matched_mono _ st h

theorem contentFileStep_validated_mono {env : ScanEnv} {currentPath : String}
    {st : ContentScanState} {file : File} {tech : String}
    (h : tech ∈ st.validated) :
    tech ∈ (contentFileStep env currentPath st file).validated := by
  unfold contentFileStep
  cases h1 : (file.FileType != "file") with
  | true => simpa using h
  | false =>
    cases h2 : (fileExt file.Name == "") with
    | true => simpa using h
    | false =>
      cases h3 : (!HasContentMatchers env.registry (fileExt file.Name)) with
      | true => simpa using h
      | false =>
        cases h4 : file.Content with
        | none => simpa using h
        | some content => simpa using matchFold_validated_mono _ st h

theorem contentFileStep_Techs_mono {env : ScanEnv} {currentPath : String}
    {st : ContentScanState} {file : File} {tech : String}
    (h : tech ∈ st.ctx.Techs) :
    tech ∈ (contentFileStep env currentPath st file).ctx.Techs := by
  unfold contentFileStep
  cases h1 : (file.FileType != "file") with
  | true => simpa using h
  | false =>
    cases h2 : (fileExt file.Name == "") with
    | true => simpa using h
    | false =>
      cases h3 : (!HasContentMatchers env.registry (fileExt file.Name)) with
      | true => simpa using h
      | false =>
        cases h4 : file.Content with
        | none => simpa using h
        | some content => simpa using matchFold_Techs_mono _ st h

theorem contentFileStep_validated_absent {env : ScanEnv} {currentPath : String}
    {st : ContentScanState} {file : File} {tech : String}
    (hNo : file.FileType = "file" → ∀ content, file.Content = some content →
      ∀ m : ContentMatcher,
        (∃ e, env.registry.find? (fun en => en.1 == fileExt file.Name) = some e ∧
          m ∈ e.2) →
        m.Tech = tech → env.rmatch m.Pattern content = false)
    (h : tech ∉ st.validated) :
    tech ∉ (contentFileStep env currentPath st file).validated := by
  unfold contentFileStep
  cases h1 : (file.FileType != "file") with
  | true => simpa using h
  | false =>
    have hft : file.FileType = "file" := by simpa using h1
    cases h2 : (fileExt file.Name == "") with
    | true => simpa using h
    | false =>
      cases h3 : (!HasContentMatchers env.registry (fileExt file.Name)) with
      | true => simpa using h
      | false =>
        cases h4 : file.Content with
        | none => simpa using h
        | some content =>
          have hne : ∀ x ∈ MatchContent env.rmatch env.registry
              (fileExt file.Name) content, x.1 ≠ tech := by
            apply MatchContent_absent
            intro e he m hm hmt
            exact hNo hft content h4 m ⟨e, he, hm⟩ hmt
          simpa using matchFold_validated_absent _ st hne h

theorem contentFileStep_sat {env : ScanEnv} {currentPath : String}
    {st : ContentScanState} {file : File} {tech content : String}
    {e : String × List ContentMatcher}
    (hft : file.FileType = "file") (hext : fileExt file.Name ≠ "")
    (hcontent : file.Content = some content)
    (hfind : env.registry.find? (fun en => en.1 == fileExt file.Name) = some e)
    (hm : ∃ m ∈ e.2, m.Tech = tech ∧ env.rmatch m.Pattern content = true) :
    tech ∈ (contentFileStep env currentPath st file).validated ∧
    tech ∈ (contentFileStep env currentPath st file).ctx.Techs := by
  unfold contentFileStep
  have h1 : (file.FileType != "file") = false := by simp [hft]
  have h2 : (fileExt file.Name == "") = false := by simpa using hext
  have h3 : (!HasContentMatchers env.registry (fileExt file.Name)) = false := by
    unfold HasContentMatchers
    rw [hfind]
    rfl
  rw [h1, h2, h3, hcontent]
  simp only [Bool.false_eq_true, if_false]
  rcases MatchContent_exists hfind hm with ⟨x, hx, hxt, hxe⟩
  exact matchFold_sat _ st ⟨x, hx, hxt, hxe⟩

theorem fileFold_matched_mono {env : ScanEnv} {currentPath : String}
    {tech : String} (files : List File) (st : ContentScanState)
    (h : tech ∈ st.matched) :
    tech ∈ (files.foldl (contentFileStep env currentPath) st).matched := by
  induction files generalizing st with
  | nil => exact h
  | cons f fs ih => exact ih _ (contentFileStep_matched_mono h)

theorem fileFold_validated_mono {env : ScanEnv} {currentPath : String}
    {tech : String} (files : List File) (st : ContentScanState)
    (h : tech ∈ st.validated) :
    tech ∈ (files.foldl (contentFileStep env currentPath) st).validated := by
  induction files generalizing st with
  | nil => exact h
  | cons f fs ih => exact ih _ (contentFileStep_validated_mono h)

theorem fileFold_Techs_mono {env : ScanEnv} {currentPath : String}
    {tech : String} (files : List File) (st : ContentScanState)
    (h : tech ∈ st.ctx.Techs) :
    tech ∈ (files.foldl (contentFileStep env currentPath) st).ctx.Techs := by
  induction files generalizing st with
  | nil => exact h
  | cons f fs ih => exact ih _ (contentFileStep_Techs_mono h)

theorem fileFold_validated_absent {env : ScanEnv} {currentPath : String}
    {tech : String} (files : List File) (st : ContentScanState)
    (hNo : ∀ f ∈ files, f.FileType = "file" → ∀ content, f.Content = some content →
      ∀ m : ContentMatcher,
        (∃ e, env.registry.find? (fun en => en.1 == fileExt f.Name) = some e ∧
          m ∈ e.2) →
        m.Tech = tech → env.rmatch m.Pattern content = false)
    (h : tech ∉ st.validated) :
    tech ∉ (files.foldl (contentFileStep env currentPath) st).validated := by
  induction files generalizing st with
  | nil => exact h
  | cons f fs ih =>
    exact ih _ (fun g hg => hNo g (List.mem_cons_of_mem _ hg))
      (contentFileStep_validated_absent (hNo f (List.mem_cons_self f fs)) h)

theorem fileFold_sat {env : ScanEnv} {currentPath : String} {tech : String}
    (files : List File) (st : ContentScanState)
    (hs : ∃ f ∈ files, f.FileType = "file" ∧ fileExt f.Name ≠ "" ∧
      ∃ content, f.Content = some content ∧
      ∃ e, env.registry.find? (fun en => en.1 == fileExt f.Name) = some e ∧
      ∃ m ∈ e.2, m.Tech = tech ∧ env.rmatch m.Pattern content = true) :
    tech ∈ (files.foldl (contentFileStep env currentPath) st).validated ∧
    tech ∈ (files.foldl (contentFileStep env currentPath) st).ctx.Techs := by
  induction files generalizing st with
  | nil => rcases hs with ⟨f, hf, _⟩; cases hf
  | cons f fs ih =>
    simp only [List.foldl_cons]
    rcases hs with ⟨g, hg, hgt, hge, content, hgc, e, hgf, hm⟩
    rcases List.mem_cons.mp hg with rfl | hg'
    · have hstep := @contentFileStep_sat env currentPath st _ tech content e
        hgt hge hgc hgf hm
      exact ⟨fileFold_validated_mono fs _ hstep.1, fileFold_Techs_mono fs _ hstep.2⟩
    · exact ih _ ⟨g, hg', hgt, hge, content, hgc, e, hgf, hm⟩

/-- C1: the content-validation gate of Scanner.detectByContent. For every
scan environment, directory file list and starting state, and every tech
guarded by a rule with at least one content predicate: (a) if the tech was
detected by extension only (it is among the matched techs entering the
content step) and no content matcher of that tech matches any readable file
of the directory, then after detectByContent the tech is absent from both
the Techs and the Tech array of the context payload; (b) if some regular
file of the directory with a registered extension satisfies a content
matcher of the tech, the tech is present in the context's Techs
afterwards. -/
theorem C1_content_validation_gate (env : ScanEnv) (files : List File)
    (currentPath : String) (ctx : Payload) (matched : List String) (pos : Nat)
    (tech : String)
    (hrule : ∃ r ∈ env.rules, r.Tech = tech ∧ r.Content ≠ []) :
    ((tech ∈ matched ∧
      (∀ f ∈ files, f.FileType = "file" → ∀ content, f.Content = some content →
        ∀ m : ContentMatcher,
          (∃ e, env.registry.find? (fun en => en.1 == fileExt f.Name) = some e ∧
            m ∈ e.2) →
          m.Tech = tech → env.rmatch m.Pattern content = false)) →
      tech ∉ (detectByContent env files currentPath ctx matched pos).1.Techs ∧
      tech ∉ (detectByContent env files currentPath ctx matched pos).1.Tech) ∧
    ((∃ f ∈ files, f.FileType = "file" ∧ fileExt f.Name ≠ "" ∧
      ∃ content, f.Content = some content ∧
      ∃ e, env.registry.find? (fun en => en.1 == fileExt f.Name) = some e ∧
      ∃ m ∈ e.2, m.Tech = tech ∧ env.rmatch m.Pattern content = true) →
      tech ∈ (detectByContent env files currentPath ctx matched pos).1.Techs) := by
  rcases hrule with ⟨r, hr, hrt, hrc⟩
  have hG : tech ∈ getTechsWithContentRules env.rules := by
    rw [← hrt]
    exact mem_getTechsWithContentRules hr hrc
  rw [detectByContent_fst]
  constructor
  · rintro ⟨hmem, hNo⟩
    have hM : tech ∈ (files.foldl (contentFileStep env currentPath)
        ⟨ctx, matched, [], pos⟩).matched :=
      fileFold_matched_mono files _ hmem
    have hV : tech ∉ (files.foldl (contentFileStep env currentPath)
        ⟨ctx, matched, [], pos⟩).validated :=
      fileFold_validated_absent files _ hNo (by simp)
    have hvc : (files.foldl (contentFileStep env currentPath)
        ⟨ctx, matched, [], pos⟩).validated.contains tech = false := by
      cases hc : (files.foldl (contentFileStep env currentPath)
          ⟨ctx, matched, [], pos⟩).validated.contains tech with
      | false => rfl
      | true => exact absurd (List.elem_iff.mp hc) hV
    exact gateFold_removes _ _ hG hM hvc
  · intro hs
    have hsat := @fileFold_sat env currentPath tech files
      ⟨ctx, matched, [], pos⟩ hs
    have hvc : (files.foldl (contentFileStep env currentPath)
        ⟨ctx, matched, [], pos⟩).validated.contains tech = true :=
      List.elem_iff.mpr hsat.1
    exact gateFold_pres_present _ _ hvc hsat.2

/-- C1 witness: in the spec's mfc scenario, a directory whose only C++ file
contains just a plain main function has mfc revoked from Techs and Tech even
though it entered the step as matched, while a file containing an afx
include keeps mfc in Techs. -/
theorem C1_content_validation_gate_witness :
    (∃ r ∈ mfcEnv.rules, r.Tech = "mfc" ∧ r.Content ≠ []) ∧
    "mfc" ∉ (detectByContent mfcEnv [cppPlain] "/src" mfcCtx ["mfc"] 0).1.Techs ∧
    "mfc" ∉ (detectByContent mfcEnv [cppPlain] "/src" mfcCtx ["mfc"] 0).1.Tech ∧
    "mfc" ∈ (detectByContent mfcEnv [cppAfx] "/src" mfcCtx [] 0).1.Techs := by
  have hrule : ∃ r ∈ mfcEnv.rules, r.Tech = "mfc" ∧ r.Content ≠ [] :=
    ⟨ruleMfc, by decide, by decide, by decide⟩
  have hNo : ∀ f ∈ [cppPlain], f.FileType = "file" →
      ∀ content, f.Content = some content →
      ∀ m : ContentMatcher,
        (∃ e, mfcEnv.registry.find? (fun en => en.1 == fileExt f.Name) = some e ∧
          m ∈ e.2) →
        m.Tech = "mfc" → mfcEnv.rmatch m.Pattern content = false := by
    intro f hf hft content hcontent m hme hmt
    rcases List.mem_singleton.mp hf with rfl
    have hc : content = "int main()\x7b\x7d" :=
      Option.some.inj (hcontent.symm.trans
        (by rfl : cppPlain.Content = some "int main()\x7b\x7d"))
    subst hc
    rcases hme with ⟨e, hfind, hmem⟩
    have he : e = (".cpp", [mfcMatcher]) :=
      (Option.some.inj ((by decide : mfcEnv.registry.find?
        (fun en => en.1 == fileExt cppPlain.Name) =
        some (".cpp", [mfcMatcher])).symm.trans hfind)).symm
    subst he
    rcases List.mem_singleton.mp hmem with rfl
    decide
  have h1 := C1_content_validation_gate mfcEnv [cppPlain] "/src" mfcCtx
    ["mfc"] 0 "mfc" hrule
  have h2 := C1_content_validation_gate mfcEnv [cppAfx] "/src" mfcCtx
    [] 0 "mfc" hrule
  have ha := h1.1 ⟨List.mem_singleton.mpr rfl, hNo⟩
  refine ⟨hrule, ha.1, ha.2, ?_⟩
  exact h2.2 ⟨cppAfx, List.mem_singleton.mpr rfl, rfl, by decide,
    "#include <afxwin.h>", rfl, (".cpp", [mfcMatcher]), by decide,
    mfcMatcher, List.mem_singleton.mpr rfl, rfl, by decide⟩

theorem eraseIds_mk (c : PayloadCore) (cs : List Payload) :
    eraseIds (.mk c cs) = .mk (eraseCore c) (eraseIdsList cs) := rfl

theorem ID_eraseIds (p : Payload) : (eraseIds p).ID = "" := by
  cases p with
  | mk c cs => rfl

theorem Name_eraseIds (p : Payload) : (eraseIds p).Name = p.Name := by
  cases p with
  | mk c cs => rfl

theorem Path_eraseIds (p : Payload) : (eraseIds p).Path = p.Path := by
  cases p with
  | mk c cs => rfl

theorem Tech_eraseIds (p : Payload) : (eraseIds p).Tech = p.Tech := by
  cases p with
  | mk c cs => rfl

theorem Techs_eraseIds (p : Payload) : (eraseIds p).Techs = p.Techs := by
  cases p with
  | mk c cs => rfl

theorem Reason_eraseIds (p : Payload) : (eraseIds p).Reason = p.Reason := by
  cases p with
  | mk c cs => rfl

theorem Dependencies_eraseIds (p : Payload) :
    (eraseIds p).Dependencies = p.Dependencies := by
  cases p with
  | mk c cs => rfl

theorem eraseIds_modifyCore (p : Payload) (f : PayloadCore → PayloadCore)
    (h : ∀ c, eraseCore (f c) = f (eraseCore c)) :
    eraseIds (p.modifyCore f) = (eraseIds p).modifyCore f := by
  cases p with
  | mk c cs => exact congrArg (fun x => Payload.mk x (eraseIdsList cs)) (h c)

theorem eraseIds_AddPath (p : Payload) (path : String) :
    eraseIds (p.AddPath path) = (eraseIds p).AddPath path := by
  unfold Payload.AddPath
  rw [Path_eraseIds]
  cases h : containsString p.Path path with
  | true => simp
  | false =>
    simp only [Bool.false_eq_true, if_false]
    exact eraseIds_modifyCore p _ (fun c => rfl)

theorem eraseIds_AddPrimaryTech (p : Payload) (tech : String) :
    eraseIds (p.AddPrimaryTech tech) = (eraseIds p).AddPrimaryTech tech := by
  unfold Payload.AddPrimaryTech
  rw [Tech_eraseIds]
  cases h : containsString p.Tech tech with
  | true => simp
  | false =>
    simp only [Bool.false_eq_true, if_false]
    exact eraseIds_modifyCore p _ (fun c => rfl)

theorem eraseIds_AddDependency (p : Payload) (d : Dependency) :
    eraseIds (p.AddDependency d) = (eraseIds p).AddDependency d :=
  eraseIds_modifyCore p _ (fun c => rfl)

theorem eraseIds_removeTech (p : Payload) (t : String) :
    eraseIds (removeTechFromPayload p t) = removeTechFromPayload (eraseIds p) t :=
  eraseIds_modifyCore p _ (fun c => rfl)

theorem eraseIds_AddTech (p : Payload) (tech reason : String) :
    eraseIds (p.AddTech tech reason) = (eraseIds p).AddTech tech reason := by
  unfold Payload.AddTech
  rw [Techs_eraseIds]
  cases h1 : containsString p.Techs tech with
  | true =>
    simp only [if_true]
    rw [Reason_eraseIds]
    cases h2 : (reason != "" && !containsString p.Reason reason) with
    | true =>
      simp only [if_true]
      exact eraseIds_modifyCore p _ (fun c => rfl)
    | false => simp
  | false =>
    simp only [Bool.false_eq_true, if_false]
    have e1 : eraseIds (p.modifyCore fun c => { c with Techs := c.Techs ++ [tech] })
        = (eraseIds p).modifyCore fun c => { c with Techs := c.Techs ++ [tech] } :=
      eraseIds_modifyCore p _ (fun c => rfl)
    have hR : ((eraseIds p).modifyCore
          fun c => { c with Techs := c.Techs ++ [tech] }).Reason
        = (p.modifyCore fun c => { c with Techs := c.Techs ++ [tech] }).Reason := by
      cases p with
      | mk c cs => rfl
    rw [hR]
    cases h2 : (reason != "" && !containsString
        (p.modifyCore fun c => { c with Techs := c.Techs ++ [tech] }).Reason
        reason) with
    | true =>
      simp only [if_true]
      rw [← e1]
      exact eraseIds_modifyCore _ _ (fun c => rfl)
    | false => simpa using e1

theorem eraseIds_AddEdges (p t : Payload) :
    eraseIds (p.AddEdges t) = (eraseIds p).AddEdges (eraseIds t) := by
  cases p with
  | mk c cs =>
    show Payload.mk (eraseCore { c with Edges := c.Edges ++ [⟨t.ID, true, true⟩] })
        (eraseIdsList cs) =
      Payload.mk { eraseCore c with
        Edges := (eraseCore c).Edges ++ [⟨(eraseIds t).ID, true, true⟩] }
        (eraseIdsList cs)
    rw [ID_eraseIds]
    unfold eraseCore
    simp [List.map_append, eraseEdge]

theorem eraseIds_NewPayload (id name : String) (paths : List String) :
    eraseIds (NewPayload id name paths) = NewPayload "" name paths := rfl

theorem eraseIds_foldl_AddPath (ps : List String) (p : Payload) :
    eraseIds (ps.foldl Payload.AddPath p) =
    ps.foldl Payload.AddPath (eraseIds p) := by
  induction ps generalizing p with
  | nil => rfl
  | cons a ps ih =>
    simp only [List.foldl_cons]
    rw [ih, eraseIds_AddPath]

theorem eraseIds_foldl_AddPrimaryTech (ts : List String) (p : Payload) :
    eraseIds (ts.foldl Payload.AddPrimaryTech p) =
    ts.foldl Payload.AddPrimaryTech (eraseIds p) := by
  induction ts generalizing p with
  | nil => rfl
  | cons a ts ih =>
    simp only [List.foldl_cons]
    rw [ih, eraseIds_AddPrimaryTech]

theorem eraseIds_foldl_AddDependency (ds : List Dependency) (p : Payload) :
    eraseIds (ds.foldl Payload.AddDependency p) =
    ds.foldl Payload.AddDependency (eraseIds p) := by
  induction ds generalizing p with
  | nil => rfl
  | cons a ds ih =>
    simp only [List.foldl_cons]
    rw [ih, eraseIds_AddDependency]

theorem eraseIds_foldl_AddTech (t : String) (rs : List String) (p : Payload) :
    eraseIds (rs.foldl (fun c r => c.AddTech t r) p) =
    rs.foldl (fun c r => c.AddTech t r) (eraseIds p) := by
  induction rs generalizing p with
  | nil => rfl
  | cons a rs ih =>
    simp only [List.foldl_cons]
    rw [ih, eraseIds_AddTech]

theorem eraseIds_mergeChildInto (c s : Payload) :
    eraseIds (mergeChildInto c s) = mergeChildInto (eraseIds c) (eraseIds s) := by
  unfold mergeChildInto
  rw [Dependencies_eraseIds, Tech_eraseIds, Path_eraseIds]
  rw [eraseIds_foldl_AddDependency, eraseIds_foldl_AddPrimaryTech,
    eraseIds_foldl_AddPath]

theorem addChildMatch_eraseIds (s c : Payload) :
    addChildMatch (eraseIds s) (eraseIds c) = addChildMatch s c := by
  unfold addChildMatch
  rw [Tech_eraseIds, Tech_eraseIds, Name_eraseIds, Name_eraseIds]

theorem eraseIdsList_addChildList (s : Payload) (cs : List Payload) :
    eraseIdsList (addChildList s cs) =
    addChildList (eraseIds s) (eraseIdsList cs) := by
  induction cs with
  | nil => rfl
  | cons c cs ih =>
    show eraseIdsList (if addChildMatch s c then mergeChildInto c s :: cs
        else c :: addChildList s cs)
      = if addChildMatch (eraseIds s) (eraseIds c) then
          mergeChildInto (eraseIds c) (eraseIds s) :: eraseIdsList cs
        else eraseIds c :: addChildList (eraseIds s) (eraseIdsList cs)
    rw [addChildMatch_eraseIds]
    cases h : addChildMatch s c with
    | true =>
      show eraseIds (mergeChildInto c s) :: eraseIdsList cs
        = mergeChildInto (eraseIds c) (eraseIds s) :: eraseIdsList cs
      rw [eraseIds_mergeChildInto]
    | false =>
      show eraseIds c :: eraseIdsList (addChildList s cs)
        = eraseIds c :: addChildList (eraseIds s) (eraseIdsList cs)
      rw [ih]

theorem eraseIds_AddChild (p s : Payload) :
    eraseIds (p.AddChild s) = (eraseIds p).AddChild (eraseIds s) := by
  cases p with
  | mk c cs =>
    show Payload.mk (eraseCore c) (eraseIdsList (addChildList s cs))
      = Payload.mk (eraseCore c) (addChildList (eraseIds s) (eraseIdsList cs))
    rw [eraseIdsList_addChildList]

theorem eraseIds_implicitComponentOf (rule : Rule) (paths : List String)
    (cp freshId : String) :
    eraseIds (implicitComponentOf rule paths cp freshId) =
    implicitComponentOf rule paths cp "" := by
  show eraseIds ((if ShouldAddPrimaryTech rule then
      (NewPayload freshId rule.Name paths).AddPrimaryTech rule.Tech
    else (NewPayload freshId rule.Name paths).AddTech rule.Tech
      ("matched file: " ++ cp)).modifyCore
      fun c => { c with Reason := c.Reason ++ ["matched file: " ++ cp] })
    = ((if ShouldAddPrimaryTech rule then
      (NewPayload "" rule.Name paths).AddPrimaryTech rule.Tech
    else (NewPayload "" rule.Name paths).AddTech rule.Tech
      ("matched file: " ++ cp)).modifyCore
      fun c => { c with Reason := c.Reason ++ ["matched file: " ++ cp] })
  cases h : ShouldAddPrimaryTech rule with
  | true =>
    have hm := eraseIds_modifyCore
      ((NewPayload freshId rule.Name paths).AddPrimaryTech rule.Tech)
      (fun c => { c with Reason := c.Reason ++ ["matched file: " ++ cp] })
      (fun c => rfl)
    simp only [if_true]
    rw [hm, eraseIds_AddPrimaryTech, eraseIds_NewPayload]
  | false =>
    have hm := eraseIds_modifyCore
      ((NewPayload freshId rule.Name paths).AddTech rule.Tech
        ("matched file: " ++ cp))
      (fun c => { c with Reason := c.Reason ++ ["matched file: " ++ cp] })
      (fun c => rfl)
    simp only [Bool.false_eq_true, if_false]
    rw [hm, eraseIds_AddTech, eraseIds_NewPayload]

theorem eraseIds_findImplicitComponent (p : Payload) (rule : Rule)
    (cp : String) (ae : Bool) (freshId : String) :
    eraseIds (findImplicitComponent p rule cp ae freshId) =
    findImplicitComponent (eraseIds p) rule cp ae "" := by
  unfold findImplicitComponent
  cases hsc : ShouldCreateComponent rule with
  | false => simp
  | true =>
    simp only [hsc, Bool.not_true, Bool.false_eq_true, if_false]
    cases hae : (ae && rule.RuleType != "hosting" && rule.RuleType != "cloud") with
    | true =>
      show eraseIds ((p.AddChild (implicitComponentOf rule p.Path cp
          freshId)).AddEdges (implicitComponentOf rule p.Path cp freshId))
        = ((eraseIds p).AddChild (implicitComponentOf rule (eraseIds p).Path cp
          "")).AddEdges (implicitComponentOf rule (eraseIds p).Path cp "")
      rw [Path_eraseIds, eraseIds_AddEdges, eraseIds_AddChild,
        eraseIds_implicitComponentOf]
    | false =>
      show eraseIds (p.AddChild (implicitComponentOf rule p.Path cp freshId))
        = (eraseIds p).AddChild (implicitComponentOf rule (eraseIds p).Path cp "")
      rw [Path_eraseIds, eraseIds_AddChild, eraseIds_implicitComponentOf]

theorem eraseIds_findImplicitComponentByTechR (env : ScanEnv) (p : Payload)
    (tech cp : String) (ae : Bool) (pos : Nat) :
    eraseIds (findImplicitComponentByTechR env p tech cp ae pos).1 =
    findImplicitComponentByTech env.rules (eraseIds p) tech cp ae "" := by
  unfold findImplicitComponentByTechR findImplicitComponentByTech
  cases env.rules.find? (fun r => r.Tech == tech) with
  | none => rfl
  | some rule => exact eraseIds_findImplicitComponent p rule cp ae _

theorem contentMatchStep_eq (env : ScanEnv) (cp : String)
    (st : ContentScanState) (m : String × List String) :
    contentMatchStep env cp st m =
    if st.matched.contains m.1 then
      ⟨m.2.foldl (fun c r => c.AddTech m.1 r) st.ctx, st.matched,
       (if st.validated.contains m.1 then st.validated else st.validated ++ [m.1]),
       st.pos⟩
    else
      ⟨(findImplicitComponentByTechR env
          (m.2.foldl (fun c r => c.AddTech m.1 r) st.ctx) m.1 cp false st.pos).1,
       st.matched ++ [m.1],
       (if st.validated.contains m.1 then st.validated else st.validated ++ [m.1]),
       (findImplicitComponentByTechR env
          (m.2.foldl (fun c r => c.AddTech m.1 r) st.ctx) m.1 cp false st.pos).2⟩ :=
  rfl

theorem contentMatchStep_bisim {env1 env2 : ScanEnv} (hr : env1.rules = env2.rules)
    (cp : String) (st1 st2 : ContentScanState)
    (hc : eraseIds st1.ctx = eraseIds st2.ctx) (hm : st1.matched = st2.matched)
    (hv : st1.validated = st2.validated) (m : String × List String) :
    eraseIds (contentMatchStep env1 cp st1 m).ctx =
      eraseIds (contentMatchStep env2 cp st2 m).ctx ∧
    (contentMatchStep env1 cp st1 m).matched =
      (contentMatchStep env2 cp st2 m).matched ∧
    (contentMatchStep env1 cp st1 m).validated =
      (contentMatchStep env2 cp st2 m).validated := by
  rw [contentMatchStep_eq, contentMatchStep_eq, hm, hv]
  cases h : st2.matched.contains m.1 with
  | true =>
    refine ⟨?_, rfl, rfl⟩
    show eraseIds (m.2.foldl (fun c r => c.AddTech m.1 r) st1.ctx)
      = eraseIds (m.2.foldl (fun c r => c.AddTech m.1 r) st2.ctx)
    rw [eraseIds_foldl_AddTech, eraseIds_foldl_AddTech, hc]
  | false =>
    refine ⟨?_, rfl, rfl⟩
    show eraseIds (findImplicitComponentByTechR env1
        (m.2.foldl (fun c r => c.AddTech m.1 r) st1.ctx) m.1 cp false st1.pos).1
      = eraseIds (findImplicitComponentByTechR env2
        (m.2.foldl (fun c r => c.AddTech m.1 r) st2.ctx) m.1 cp false st2.pos).1
    rw [eraseIds_findImplicitComponentByTechR,
      eraseIds_findImplicitComponentByTechR, hr,
      eraseIds_foldl_AddTech, eraseIds_foldl_AddTech, hc]

theorem matchFold_bisim {env1 env2 : ScanEnv} (hr : env1.rules = env2.rules)
    (cp : String) (ms : List (String × List String))
    (st1 st2 : ContentScanState)
    (hc : eraseIds st1.ctx = eraseIds st2.ctx) (hm : st1.matched = st2.matched)
    (hv : st1.validated = st2.validated) :
    eraseIds (ms.foldl (contentMatchStep env1 cp) st1).ctx =
      eraseIds (ms.foldl (contentMatchStep env2 cp) st2).ctx ∧
    (ms.foldl (contentMatchStep env1 cp) st1).matched =
      (ms.foldl (contentMatchStep env2 cp) st2).matched ∧
    (ms.foldl (contentMatchStep env1 cp) st1).validated =
      (ms.foldl (contentMatchStep env2 cp) st2).validated := by
  induction ms generalizing st1 st2 with
  | nil => exact ⟨hc, hm, hv⟩
  | cons m ms ih =>
    simp only [List.foldl_cons]
    have hstep := contentMatchStep_bisim hr cp st1 st2 hc hm hv m
    exact ih _ _ hstep.1 hstep.2.1 hstep.2.2

theorem contentFileStep_bisim {env1 env2 : ScanEnv} (hr : env1.rules = env2.rules)
    (hreg : env1.registry = env2.registry) (hrm : env1.rmatch = env2.rmatch)
    (cp : String) (st1 st2 : ContentScanState)
    (hc : eraseIds st1.ctx = eraseIds st2.ctx) (hm : st1.matched = st2.matched)
    (hv : st1.validated = st2.validated) (f : File) :
    eraseIds (contentFileStep env1 cp st1 f).ctx =
      eraseIds (contentFileStep env2 cp st2 f).ctx ∧
    (contentFileStep env1 cp st1 f).matched =
      (contentFileStep env2 cp st2 f).matched ∧
    (contentFileStep env1 cp st1 f).validated =
      (contentFileStep env2 cp st2 f).validated := by
  unfold contentFileStep
  rw [hreg, hrm]
  cases h1 : (f.FileType != "file") with
  | true => exact ⟨hc, hm, hv⟩
  | false =>
    cases h2 : (fileExt f.Name == "") with
    | true => exact ⟨hc, hm, hv⟩
    | false =>
      cases h3 : (!HasContentMatchers env2.registry (fileExt f.Name)) with
      | true => exact ⟨hc, hm, hv⟩
      | false =>
        cases h4 : f.Content with
        | none => exact ⟨hc, hm, hv⟩
        | some content => exact matchFold_bisim hr cp _ st1 st2 hc hm hv

theorem fileFold_bisim {env1 env2 : ScanEnv} (hr : env1.rules = env2.rules)
    (hreg : env1.registry = env2.registry) (hrm : env1.rmatch = env2.rmatch)
    (cp : String) (files : List File) (st1 st2 : ContentScanState)
    (hc : eraseIds st1.ctx = eraseIds st2.ctx) (hm : st1.matched = st2.matched)
    (hv : st1.validated = st2.validated) :
    eraseIds (files.foldl (contentFileStep env1 cp) st1).ctx =
      eraseIds (files.foldl (contentFileStep env2 cp) st2).ctx ∧
    (files.foldl (contentFileStep env1 cp) st1).matched =
      (files.foldl (contentFileStep env2 cp) st2).matched ∧
    (files.foldl (contentFileStep env1 cp) st1).validated =
      (files.foldl (contentFileStep env2 cp) st2).validated := by
  induction files generalizing st1 st2 with
  | nil => exact ⟨hc, hm, hv⟩
  | cons f fs ih =>
    simp only [List.foldl_cons]
    have hstep := contentFileStep_bisim hr hreg hrm cp st1 st2 hc hm hv f
    exact ih _ _ hstep.1 hstep.2.1 hstep.2.2

theorem contentGateStep_bisim {v : List String} (s1 s2 : Payload × List String)
    (hc : eraseIds s1.1 = eraseIds s2.1) (hm : s1.2 = s2.2) (g : String) :
    eraseIds (contentGateStep v s1 g).1 = eraseIds (contentGateStep v s2 g).1 ∧
    (contentGateStep v s1 g).2 = (contentGateStep v s2 g).2 := by
  unfold contentGateStep
  rw [hm]
  cases h : (s2.2.contains g && !v.contains g) with
  | false => exact ⟨hc, hm⟩
  | true =>
    refine ⟨?_, rfl⟩
    show eraseIds (removeTechFromPayload s1.1 g)
      = eraseIds (removeTechFromPayload s2.1 g)
    rw [eraseIds_removeTech, eraseIds_removeTech, hc]

theorem gateFold_bisim {v : List String} (gs : List String)
    (s1 s2 : Payload × List String)
    (hc : eraseIds s1.1 = eraseIds s2.1) (hm : s1.2 = s2.2) :
    eraseIds (gs.foldl (contentGateStep v) s1).1 =
      eraseIds (gs.foldl (contentGateStep v) s2).1 ∧
    (gs.foldl (contentGateStep v) s1).2 = (gs.foldl (contentGateStep v) s2).2 := by
  induction gs generalizing s1 s2 with
  | nil => exact ⟨hc, hm⟩
  | cons g gs ih =>
    simp only [List.foldl_cons]
    have hstep := @contentGateStep_bisim v s1 s2 hc hm g
    exact ih _ _ hstep.1 hstep.2

theorem detectByContent_snd (env : ScanEnv) (files : List File)
    (currentPath : String) (ctx : Payload) (matched : List String) (pos : Nat) :
    (detectByContent env files currentPath ctx matched pos).2.1 =
    ((getTechsWithContentRules env.rules).foldl
      (contentGateStep (files.foldl (contentFileStep env currentPath)
        ⟨ctx, matched, [], pos⟩).validated)
      ((files.foldl (contentFileStep env currentPath) ⟨ctx, matched, [], pos⟩).ctx,
       (files.foldl (contentFileStep env currentPath) ⟨ctx, matched, [], pos⟩).matched)).2 :=
  rfl

theorem contentFileStepP_id (env : ScanEnv) (cp : String)
    (st : ContentScanState × Nat) (f : File) :
    contentFileStepP env idOrd cp st f = (contentFileStep env cp st.1 f, st.2 + 1) :=
  rfl

theorem fileFoldP_id (env : ScanEnv) (cp : String) (files : List File)
    (s : ContentScanState) (k : Nat) :
    (files.foldl (contentFileStepP env idOrd cp) (s, k)).1 =
    files.foldl (contentFileStep env cp) s := by
  induction files generalizing s k with
  | nil => rfl
  | cons f fs ih =>
    simp only [List.foldl_cons]
    rw [contentFileStepP_id]
    exact ih _ _

theorem detectByContentP_id (env : ScanEnv) (files : List File) (cp : String)
    (ctx : Payload) (matched : List String) (pos : Nat) :
    detectByContentP env idOrd files cp ctx matched pos =
    detectByContent env files cp ctx matched pos :=
  congrArg (fun s : ContentScanState =>
    ((((getTechsWithContentRules env.rules).foldl (contentGateStep s.validated)
        (s.ctx, s.matched)).1,
      ((getTechsWithContentRules env.rules).foldl (contentGateStep s.validated)
        (s.ctx, s.matched)).2,
      s.pos) : Payload × List String × Nat))
    (fileFoldP_id env cp files ⟨ctx, matched, [], pos⟩ 0)

theorem detectByContentP_fst (env : ScanEnv)
    (ord : Nat → List (String × List String) → List (String × List String))
    (files : List File) (currentPath : String) (ctx : Payload)
    (matched : List String) (pos : Nat) :
    (detectByContentP env ord files currentPath ctx matched pos).1 =
    ((getTechsWithContentRules env.rules).foldl
      (contentGateStep ((files.foldl (contentFileStepP env ord currentPath)
        (⟨ctx, matched, [], pos⟩, 0)).1).validated)
      (((files.foldl (contentFileStepP env ord currentPath)
        (⟨ctx, matched, [], pos⟩, 0)).1).ctx,
       ((files.foldl (contentFileStepP env ord currentPath)
        (⟨ctx, matched, [], pos⟩, 0)).1).matched)).1 :=
  rfl

theorem detectByContentP_snd (env : ScanEnv)
    (ord : Nat → List (String × List String) → List (String × List String))
    (files : List File) (currentPath : String) (ctx : Payload)
    (matched : List String) (pos : Nat) :
    (detectByContentP env ord files currentPath ctx matched pos).2.1 =
    ((getTechsWithContentRules env.rules).foldl
      (contentGateStep ((files.foldl (contentFileStepP env ord currentPath)
        (⟨ctx, matched, [], pos⟩, 0)).1).validated)
      (((files.foldl (contentFileStepP env ord currentPath)
        (⟨ctx, matched, [], pos⟩, 0)).1).ctx,
       ((files.foldl (contentFileStepP env ord currentPath)
        (⟨ctx, matched, [], pos⟩, 0)).1).matched)).2 :=
  rfl

theorem contentFileStepP_bisim {env1 env2 : ScanEnv} (hr : env1.rules = env2.rules)
    (hreg : env1.registry = env2.registry) (hrm : env1.rmatch = env2.rmatch)
    (ord : Nat → List (String × List String) → List (String × List String))
    (cp : String) (st1 st2 : ContentScanState × Nat)
    (hc : eraseIds st1.1.ctx = eraseIds st2.1.ctx)
    (hm : st1.1.matched = st2.1.matched)
    (hv : st1.1.validated = st2.1.validated)
    (hk : st1.2 = st2.2) (f : File) :
    eraseIds (contentFileStepP env1 ord cp st1 f).1.ctx =
      eraseIds (contentFileStepP env2 ord cp st2 f).1.ctx ∧
    (contentFileStepP env1 ord cp st1 f).1.matched =
      (contentFileStepP env2 ord cp st2 f).1.matched ∧
    (contentFileStepP env1 ord cp st1 f).1.validated =
      (contentFileStepP env2 ord cp st2 f).1.validated ∧
    (contentFileStepP env1 ord cp st1 f).2 =
      (contentFileStepP env2 ord cp st2 f).2 := by
  unfold contentFileStepP
  rw [hreg, hrm, hk]
  cases h1 : (f.FileType != "file") with
  | true => exact ⟨hc, hm, hv, rfl⟩
  | false =>
    cases h2 : (fileExt f.Name == "") with
    | true => exact ⟨hc, hm, hv, rfl⟩
    | false =>
      cases h3 : (!HasContentMatchers env2.registry (fileExt f.Name)) with
      | true => exact ⟨hc, hm, hv, rfl⟩
      | false =>
        cases h4 : f.Content with
        | none => exact ⟨hc, hm, hv, rfl⟩
        | some content =>
          have hmf := matchFold_bisim hr cp
            (ord st2.2 (MatchContent env2.rmatch env2.registry
              (fileExt f.Name) content)) st1.1 st2.1 hc hm hv
          exact ⟨hmf.1, hmf.2.1, hmf.2.2, rfl⟩

theorem fileFoldP_bisim {env1 env2 : ScanEnv} (hr : env1.rules = env2.rules)
    (hreg : env1.registry = env2.registry) (hrm : env1.rmatch = env2.rmatch)
    (ord : Nat → List (String × List String) → List (String × List String))
    (cp : String) (files : List File) (st1 st2 : ContentScanState × Nat)
    (hc : eraseIds st1.1.ctx = eraseIds st2.1.ctx)
    (hm : st1.1.matched = st2.1.matched)
    (hv : st1.1.validated = st2.1.validated)
    (hk : st1.2 = st2.2) :
    eraseIds ((files.foldl (contentFileStepP env1 ord cp) st1).1).ctx =
      eraseIds ((files.foldl (contentFileStepP env2 ord cp) st2).1).ctx ∧
    ((files.foldl (contentFileStepP env1 ord cp) st1).1).matched =
      ((files.foldl (contentFileStepP env2 ord cp) st2).1).matched ∧
    ((files.foldl (contentFileStepP env1 ord cp) st1).1).validated =
      ((files.foldl (contentFileStepP env2 ord cp) st2).1).validated ∧
    (files.foldl (contentFileStepP env1 ord cp) st1).2 =
      (files.foldl (contentFileStepP env2 ord cp) st2).2 := by
  induction files generalizing st1 st2 with
  | nil => exact ⟨hc, hm, hv, hk⟩
  | cons f fs ih =>
    simp only [List.foldl_cons]
    have hstep := contentFileStepP_bisim hr hreg hrm ord cp st1 st2 hc hm hv hk f
    exact ih _ _ hstep.1 hstep.2.1 hstep.2.2.1 hstep.2.2.2

theorem contains_erase_ne (l : List String) {a b : String} (h : a ≠ b) :
    (l.erase b).contains a = l.contains a := by
  cases hc : l.contains a with
  | true =>
    exact List.elem_iff.mpr ((List.mem_erase_of_ne h).mpr (List.elem_iff.mp hc))
  | false =>
    cases hc2 : (l.erase b).contains a with
    | false => rfl
    | true =>
      have hmem : l.contains a = true :=
        List.elem_iff.mpr ((List.mem_erase_of_ne h).mp (List.elem_iff.mp hc2))
      rw [hc] at hmem
      cases hmem

theorem removeTech_comm (p : Payload) (a b : String) :
    removeTechFromPayload (removeTechFromPayload p a) b =
    removeTechFromPayload (removeTechFromPayload p b) a := by
  have hf : ∀ l : List String,
      (l.filter (fun t => t != a)).filter (fun t => t != b)
      = (l.filter (fun t => t != b)).filter (fun t => t != a) := by
    intro l
    induction l with
    | nil => rfl
    | cons x xs ih =>
      cases hxa : (x != a) with
      | true =>
        cases hxb : (x != b) with
        | true => simp [List.filter_cons, hxa, hxb, ih]
        | false => simp [List.filter_cons, hxa, hxb, ih]
      | false =>
        cases hxb : (x != b) with
        | true => simp [List.filter_cons, hxa, hxb, ih]
        | false => simp [List.filter_cons, hxa, hxb, ih]
  cases p with
  | mk c cs =>
    show Payload.mk
      { c with Techs := (c.Techs.filter (fun t => t != a)).filter (fun t => t != b),
               Tech := (c.Tech.filter (fun t => t != a)).filter (fun t => t != b) } cs
      = Payload.mk
      { c with Techs := (c.Techs.filter (fun t => t != b)).filter (fun t => t != a),
               Tech := (c.Tech.filter (fun t => t != b)).filter (fun t => t != a) } cs
    rw [hf, hf]

theorem contentGateStep_fire {v : List String} {st : Payload × List String}
    {a : String} (h : (st.2.contains a && !v.contains a) = true) :
    contentGateStep v st a = (removeTechFromPayload st.1 a, st.2.erase a) := by
  unfold contentGateStep
  rw [h]
  rfl

theorem contentGateStep_skip {v : List String} {st : Payload × List String}
    {a : String} (h : (st.2.contains a && !v.contains a) = false) :
    contentGateStep v st a = st := by
  unfold contentGateStep
  rw [h]
  rfl

theorem contentGateStep_comm (v : List String) (st : Payload × List String)
    (a b : String) :
    contentGateStep v (contentGateStep v st a) b =
    contentGateStep v (contentGateStep v st b) a := by
  by_cases hab : a = b
  · rw [hab]
  · cases ha : (st.2.contains a && !v.contains a) with
    | false =>
      rw [contentGateStep_skip ha]
      cases hb : (st.2.contains b && !v.contains b) with
      | false => rw [contentGateStep_skip hb, contentGateStep_skip ha]
      | true =>
        rw [contentGateStep_fire hb]
        have ha2 : (((removeTechFromPayload st.1 b, st.2.erase b) :
            Payload × List String).2.contains a && !v.contains a) = false := by
          show ((st.2.erase b).contains a && !v.contains a) = false
          rw [contains_erase_ne _ hab]
          exact ha
        rw [contentGateStep_skip ha2]
    | true =>
      rw [contentGateStep_fire ha]
      cases hb : (st.2.contains b && !v.contains b) with
      | false =>
        have hb2 : (((removeTechFromPayload st.1 a, st.2.erase a) :
            Payload × List String).2.contains b && !v.contains b) = false := by
          show ((st.2.erase a).contains b && !v.contains b) = false
          rw [contains_erase_ne _ (fun h => hab h.symm)]
          exact hb
        rw [contentGateStep_skip hb2, contentGateStep_skip hb,
          contentGateStep_fire ha]
      | true =>
        have hb2 : (((removeTechFromPayload st.1 a, st.2.erase a) :
            Payload × List String).2.contains b && !v.contains b) = true := by
          show ((st.2.erase a).contains b && !v.contains b) = true
          rw [contains_erase_ne _ (fun h => hab h.symm)]
          exact hb
        have ha2 : (((removeTechFromPayload st.1 b, st.2.erase b) :
            Payload × List String).2.contains a && !v.contains a) = true := by
          show ((st.2.erase b).contains a && !v.contains a) = true
          rw [contains_erase_ne _ hab]
          exact ha
        rw [contentGateStep_fire hb2, contentGateStep_fire hb,
          contentGateStep_fire ha2]
        show (removeTechFromPayload (removeTechFromPayload st.1 a) b,
            (st.2.erase a).erase b)
          = (removeTechFromPayload (removeTechFromPayload st.1 b) a,
            (st.2.erase b).erase a)
        rw [removeTech_comm, List.erase_comm]

theorem gateFold_perm (v : List String) {gs1 gs2 : List String}
    (hp : List.Perm gs1 gs2) (st : Payload × List String) :
    gs1.foldl (contentGateStep v) st = gs2.foldl (contentGateStep v) st := by
  refine hp.foldl_eq' ?_ st
  intro x hx y hy z
  exact contentGateStep_comm v z x y

/-- C9: the scan is NOT deterministic in the claimed sense. Two sources of
cross-run variation exist and are exhibited by the counterexample: payload
ids come from crypto/rand, and the processing order of a file's content
matches comes from randomized Go map iteration, which changes even the
id-erased tree. What remains, proved here for the content-detection stage
(the stage of the modelled slice that consumes the random stream), with the
match-processing order an explicit input: two runs over the same rules,
registry, matcher semantics, listing, starting context and processing
order — under arbitrary, possibly different random streams and stream
positions — produce context trees that are equal once every generated id
(ID fields and edge targets) is erased, and equal matched-tech lists. -/
theorem C9_content_step_deterministic_modulo_ids (env1 env2 : ScanEnv)
    (ord : Nat → List (String × List String) → List (String × List String))
    (hr : env1.rules = env2.rules) (hreg : env1.registry = env2.registry)
    (hrm : env1.rmatch = env2.rmatch) (files : List File) (cp : String)
    (ctx : Payload) (matched : List String) (pos1 pos2 : Nat) :
    eraseIds (detectByContentP env1 ord files cp ctx matched pos1).1 =
      eraseIds (detectByContentP env2 ord files cp ctx matched pos2).1 ∧
    (detectByContentP env1 ord files cp ctx matched pos1).2.1 =
      (detectByContentP env2 ord files cp ctx matched pos2).2.1 := by
  have hff := fileFoldP_bisim hr hreg hrm ord cp files
    (⟨ctx, matched, [], pos1⟩, 0) (⟨ctx, matched, [], pos2⟩, 0) rfl rfl rfl rfl
  constructor
  · rw [detectByContentP_fst, detectByContentP_fst, hr, hff.2.2.1, hff.2.1]
    exact (gateFold_bisim (getTechsWithContentRules env2.rules)
      ((((files.foldl (contentFileStepP env1 ord cp)
          (⟨ctx, matched, [], pos1⟩, 0)).1)).ctx,
       (((files.foldl (contentFileStepP env2 ord cp)
          (⟨ctx, matched, [], pos2⟩, 0)).1)).matched)
      ((((files.foldl (contentFileStepP env2 ord cp)
          (⟨ctx, matched, [], pos2⟩, 0)).1)).ctx,
       (((files.foldl (contentFileStepP env2 ord cp)
          (⟨ctx, matched, [], pos2⟩, 0)).1)).matched)
      hff.1 rfl).1
  · rw [detectByContentP_snd, detectByContentP_snd, hr, hff.2.2.1, hff.2.1]
    exact (gateFold_bisim (getTechsWithContentRules env2.rules)
      ((((files.foldl (contentFileStepP env1 ord cp)
          (⟨ctx, matched, [], pos1⟩, 0)).1)).ctx,
       (((files.foldl (contentFileStepP env2 ord cp)
          (⟨ctx, matched, [], pos2⟩, 0)).1)).matched)
      ((((files.foldl (contentFileStepP env2 ord cp)
          (⟨ctx, matched, [], pos2⟩, 0)).1)).ctx,
       (((files.foldl (contentFileStepP env2 ord cp)
          (⟨ctx, matched, [], pos2⟩, 0)).1)).matched)
      hff.1 rfl).2

/-- C9 witness: the determinism-modulo-ids theorem applied to the concrete
PostgreSQL scenario, both runs processing matches in reversed order, under
two different random streams and positions. -/
theorem C9_content_step_deterministic_modulo_ids_witness :
    pgEnvA.rules = pgEnvB.rules ∧
    eraseIds (detectByContentP pgEnvA revOrd [sqlFile] "/s" basePg [] 0).1 =
      eraseIds (detectByContentP pgEnvB revOrd [sqlFile] "/s" basePg [] 7).1 :=
  ⟨rfl, (C9_content_step_deterministic_modulo_ids pgEnvA pgEnvB revOrd
    rfl rfl rfl [sqlFile] "/s" basePg [] 0 7).1⟩

/-- C9 counterexample: on the same inputs, runs differ twice over. Different
crypto/rand draws give different child ids (first conjunct), and different
map-iteration orders over one file's two content matches give different
Techs arrays, hence different trees even after erasing every generated id
(second and third conjuncts). -/
theorem C9_runs_differ :
    (detectByContentP pgEnvA idOrd [sqlFile] "/s" basePg [] 0).1.Childs.map
        Payload.ID ≠
      (detectByContentP pgEnvB idOrd [sqlFile] "/s" basePg [] 0).1.Childs.map
        Payload.ID ∧
    (detectByContentP ordEnv idOrd [dualFile] "/s" basePg [] 0).1.Techs ≠
      (detectByContentP ordEnv revOrd [dualFile] "/s" basePg [] 0).1.Techs ∧
    eraseIds (detectByContentP ordEnv idOrd [dualFile] "/s" basePg [] 0).1 ≠
      eraseIds (detectByContentP ordEnv revOrd [dualFile] "/s" basePg [] 0).1 := by
  have hT : (detectByContentP ordEnv idOrd [dualFile] "/s" basePg [] 0).1.Techs ≠
      (detectByContentP ordEnv revOrd [dualFile] "/s" basePg [] 0).1.Techs := by
    decide
  refine ⟨by decide, hT, ?_⟩
  intro h
  apply hT
  have h2 := congrArg Payload.Techs h
  rw [Techs_eraseIds, Techs_eraseIds] at h2
  exact h2

end TSA
